import Mathlib

/-!
Verification development for the geany-plugins sources under scrutiny:
the Scope debugger plugin's breakpoint engine (break.c), the thread
lifecycle counter of its thread engine (thread.c), and the tableconvert
plugin's SQL table builder (tableconvert.c).

The C code is shallowly embedded: the GtkListStore of breakpoint rows
becomes a list of `BreakRow` records, protocol node trees become the
inductive `ParseNode`, and every claim-relevant C function is translated
into a pure Lean function over these types.  Helpers that live in files
outside the excerpt (parse.c, utils.c, debug.h) are modelled from the
specification and marked as such in their doc comments.
-/

namespace Scope

/-- Protocol node. Modelled from the spec (parse.c is not part of the
excerpt): "Protocol Node: tagged union, variant Scalar(text) or
Array(ordered sequence of (optional name, Node))".  The C `ParseNode`
has a `name`, a `type` (`PT_VALUE` or `PT_ARRAY`) and a `value`. -/
inductive ParseNode where
  | value (name : String) (v : String)
  | array (name : String) (children : List ParseNode)

def ParseNode.name : ParseNode → String
  | .value n _ => n
  | .array n _ => n

/-- Modelled from the spec: "lookup-by-name returns the first match". -/
def parse_find_node (nodes : List ParseNode) (name : String) : Option ParseNode :=
  nodes.find? (fun n => n.name = name)

/-- Modelled from the spec: "a helper to find a named scalar". -/
def parse_find_value (nodes : List ParseNode) (name : String) : Option String :=
  match parse_find_node nodes name with
  | some (.value _ v) => some v
  | _ => none

/-- Modelled from the spec: same lookup as `parse_find_value`; the C
variant additionally converts to the locale encoding, which is the
identity in this model. -/
def parse_find_locale (nodes : List ParseNode) (name : String) : Option String :=
  parse_find_value nodes name

/-- Modelled from the spec: "a helper to find a named array". -/
def parse_find_array (nodes : List ParseNode) (name : String) : Option (List ParseNode) :=
  match parse_find_node nodes name with
  | some (.array _ cs) => some cs
  | _ => none

/-- Value of a digit character. -/
def digitVal (c : Char) : Int := (c.toNat : Int) - 48

/-- Accumulate leading decimal digits, C `atoi` style. -/
def digitsVal : List Char → Int → Int
  | c :: cs, acc => if c.isDigit then digitsVal cs (acc * 10 + digitVal c) else acc
  | [], acc => acc

/-- C `atoi` on a character list: optional sign, then leading digits. -/
def c_atoi_chars : List Char → Int
  | '-' :: cs => - digitsVal cs 0
  | '+' :: cs => digitsVal cs 0
  | cs => digitsVal cs 0

/-- C `atoi`. -/
def c_atoi (s : String) : Int := c_atoi_chars s.data

/-- scope's `utils_atoi0`: `atoi` tolerating a NULL pointer.  Modelled
from the spec (utils.c is not part of the excerpt). -/
def utils_atoi0 : Option String → Int
  | none => 0
  | some s => c_atoi s

/-- C `strchr(s, c) != NULL`.  The terminating NUL is part of the
searched string, so searching for the character 0 always succeeds. -/
def c_strchr (s : String) (c : Char) : Bool :=
  s.data.contains c || c = Char.ofNat 0

/-- Character class tables of break.c. -/
def BP_CHARS : String := "bhtfwwwaarrc?"

def BP_BREAKS : String := "bh"

def BP_TRACES : String := "tf"

def BP_HARDWS : String := "hf"

def BP_BORTS : String := "bhtf"

def BP_KNOWNS : String := "btfwar"

def BP_WATCHES : String := "war"

def BP_WATOPTS : String := "ar"

/-- The `text` column of break.c's `break_types` table, in order. -/
def break_type_texts : List String :=
  ["breakpoint", "hw breakpoint", "tracepoint", "fast tracepoint", "wpt", "watchpoint",
   "hw watchpoint", "hw-awpt", "acc watchpoint", "hw-rwpt", "read watchpoint", "catchpoint"]

/-- `BP_CHARS[bt - break_types]` for the first `break_types` entry whose
text is equal; the NULL sentinel row maps to index 12, i.e. the char
`?`. -/
def break_type_char (text : String) : Char :=
  BP_CHARS.data.getD (break_type_texts.findIdx (fun t => t = text)) '?'

/-- `g_path_is_absolute` on Unix: the path starts with `/`. -/
def g_path_is_absolute (s : String) : Bool :=
  match s.data with
  | c :: _ => c = '/'
  | [] => false

/-- Split a character list at its first `:`; `none` when there is no
colon.  Mirrors `strchr(original, ':')` followed by `*split++ = '\0'`. -/
def splitFirstColon : List Char → Option (List Char × List Char)
  | [] => none
  | c :: cs =>
    if c = ':' then some ([], cs)
    else
      match splitFirstColon cs with
      | some (pre, post) => some (c :: pre, post)
      | none => none

/-- `utils_get_utf8_basename`: the path component after the last `/`.
Modelled from the spec (utils.c is not part of the excerpt): the display
string of a break/trace point is the basename of its location. -/
def baseNameChars : List Char → List Char → List Char
  | [], acc => acc.reverse
  | '/' :: rest, _ => baseNameChars rest []
  | c :: rest, acc => baseNameChars rest (c :: acc)

def baseName (s : String) : String := String.mk (baseNameChars s.data [])

/-- Location tuple extracted from a node subtree.  Modelled from the
spec: "Location Resolver: extracts a (file, line, function, address)
tuple from a node subtree" (parse.c is not part of the excerpt). -/
structure ParseLocation where
  file : Option String := none
  line : Int := 0
  func : Option String := none
  addr : Option String := none
  deriving DecidableEq

/-- Modelled from the spec: the resolver reads the conventional MI
fields: `fullname`/`file` for the file, `line`, `func` and `addr`. -/
def parse_location (nodes : List ParseNode) : ParseLocation :=
  { file := (parse_find_locale nodes "fullname").orElse (fun _ => parse_find_locale nodes "file")
    line := utils_atoi0 (parse_find_value nodes "line")
    func := parse_find_value nodes "func"
    addr := parse_find_value nodes "addr" }

/-- One row of the breakpoint list store; the fields mirror the
`BREAK_*` columns of break.c.  A fresh `gtk_list_store_append` row has
every column at its GLib default, which the field defaults encode. -/
structure BreakRow where
  id : Option String := none
  file : Option String := none
  line : Int := 0
  scid : Int := 0
  type : Char := Char.ofNat 0
  enabled : Bool := false
  display : Option String := none
  func : Option String := none
  addr : Option String := none
  times : Int := 0
  ignore : Option String := none
  cond : Option String := none
  script : Option String := none
  pending : Bool := false
  location : Option String := none
  runApply : Bool := false
  temporary : Bool := false
  discard : Bool := false
  missing : Bool := false
  deriving DecidableEq

/-- The breakpoint store plus the `scid_gen` counter. -/
structure BreakState where
  rows : List BreakRow := []
  scidGen : Int := 0
  deriving DecidableEq

/-- Observable side effects: `dc_error` reports, commands handed to
`debug_send_*`, `plugin_beep`, and the two-breakpoints message box. -/
inductive Eff where
  | dcError (m : String)
  | sendCmd (c : String)
  | beep
  | msgbox
  deriving DecidableEq

/-- break.c's `BreakStage`. -/
inductive BreakStage where
  | persist
  | discard
  | apply
  | goto
  | next
  deriving DecidableEq

/-- break.c's `BreakData`: the current row (an index into the store),
the inherited type char, and the stage. -/
structure BreakData where
  iter : Nat := 0
  type : Char := Char.ofNat 0
  stage : BreakStage := .persist
  deriving DecidableEq

/-- State threaded through `break_node_parse`. -/
structure ParseOut where
  bd : BreakData
  st : BreakState
  eff : List Eff := []
  deriving DecidableEq

/-- scope's `model_find` (store.c is not part of the excerpt), modelled
from the spec: rows are located "by id/sequence-id, never by position",
and lookup returns the first match.  The result is the index of the
first row satisfying the column predicate. -/
def model_find (p : BreakRow → Bool) : List BreakRow → Option Nat
  | [] => none
  | r :: rest => if p r = true then some 0 else (model_find p rest).map (· + 1)

/-- Replace the element at index `i` by `f` of it; out-of-range indices
leave the list unchanged. -/
def modifyIdx {α : Type} : List α → Nat → (α → α) → List α
  | [], _, _ => []
  | r :: rest, 0, f => f r :: rest
  | r :: rest, Nat.succ n, f => r :: modifyIdx rest n f

/-- `gtk_list_store_insert_after`: insert `x` directly after index `i`. -/
def insertAfterIdx {α : Type} : List α → Nat → α → List α
  | [], _, x => [x]
  | r :: rest, 0, x => r :: x :: rest
  | r :: rest, Nat.succ n, x => r :: insertAfterIdx rest n x

/-- break.c `append_script_command`: append one script command, quoted,
escaping every `"` and `\` with a backslash; an array node is reported
and appended as nothing (the `iff` check fails). -/
def append_script_command (string : String) (node : ParseNode) : String :=
  match node with
  | .value _ v =>
    let string := if string.length ≠ 0 then string ++ " " else string
    let string := string ++ "\""
    let string := v.data.foldl
      (fun acc c => if c = '"' ∨ c = '\\' then acc ++ "\\" ++ c.toString else acc ++ c.toString)
      string
    string ++ "\""
  | .array _ _ => string

/-- The script column value computed by `break_node_parse`: the composed
command string when a `script` node is present, NULL otherwise. -/
def bnp_script_value (nodes : List ParseNode) : Option String :=
  match parse_find_node nodes "script" with
  | some (.value n v) => some (append_script_command "" (.value n v))
  | some (.array _ cs) => some (cs.foldl append_script_command "")
  | none => none

/-- `bd->type` resolution: a non-leading row of an ongoing message with
unknown type inherits the previous sibling's type. -/
def break_resolve_type (stage : BreakStage) (bdType : Char) (leading : Bool) (tyc : Char) : Char :=
  if leading = true ∨ stage ≠ .next ∨ tyc ≠ '?' then tyc else bdType

/-- The `original-location` processing of the new-breakpoint branch: an
absolute `path:line` location fills in a missing resolved file, and a
missing resolved line when the text after the colon is numeric. -/
def bnp_origin_adjust (origloc : Option String) (loc : ParseLocation) : ParseLocation :=
  match origloc with
  | none => loc
  | some o =>
    match splitFirstColon o.data with
    | none => loc
    | some (pre, post) =>
      if g_path_is_absolute o = true ∧ pre ≠ [] ∧ post.head? ≠ some ':' then
        let loc1 := if loc.file = none then { loc with file := some (String.mk pre) } else loc
        if (post.head?.map Char.isDigit).getD false = true ∧ loc.line = 0 then
          { loc1 with line := c_atoi_chars post }
        else loc1
      else loc

/-- The columns set by `break_node_parse` when it creates a row. -/
def bnp_new_row (scidGen : Int) (type : Char) (display location : Option String)
    (pending runApply discard : Bool) : BreakRow :=
  { scid := scidGen + 1, type := type, display := display, pending := pending,
    location := location, runApply := runApply, discard := discard }

/-- The `BREAK_SCRIPT` store write. -/
def bnp_script_write (scriptStr : Option String) (r : BreakRow) : BreakRow :=
  { r with script := scriptStr }

/-- The conditional `BREAK_ENABLED`/`BREAK_COND`/`BREAK_IGNORE` store
write; the ignore column is skipped when the varargs list is cut short
by the `-1` ternary. -/
def bnp_cond_write (enabled : Bool) (cond ignVal : Option String) (setIgnore : Bool)
    (r : BreakRow) : BreakRow :=
  let r1 := { r with enabled := enabled, cond := cond }
  if setIgnore = true then { r1 with ignore := ignVal } else r1

/-- The unconditional final store write of `break_node_parse`. -/
def bnp_always_write (id : String) (locFile : Option String) (locLine : Int)
    (func addr : Option String) (times : Int) (temporary : Bool) (r : BreakRow) : BreakRow :=
  { r with id := some id, file := locFile, line := locLine, func := func, addr := addr,
           times := times, missing := false, temporary := temporary }

/-- break.c `break_command`: the command suffix for the three editable
columns; trace kinds use `passcount` in place of `after`. -/
def break_command (index : Nat) (type : Char) : String :=
  if index = 0 ∧ c_strchr BP_TRACES type = true then "passcount"
  else ["after", "condition", "commands"].getD index "commands"

/-- break.c `break_iter_applied`: follow-up commands once an applied
breakpoint's backend id is known. -/
def break_iter_applied (r : BreakRow) (id : String) : List Eff :=
  let borts := c_strchr BP_BORTS r.type
  let cols : List (Option String) :=
    if borts = true then
      if c_strchr BP_BREAKS r.type = true then [none, none, r.script]
      else [r.ignore, none, r.script]
    else [r.ignore, r.cond, r.script]
  let pre : List Eff :=
    if borts = false ∧ r.enabled = false then [.sendCmd ("-break-disable " ++ id)] else []
  pre ++ (List.range 3).filterMap (fun i =>
    match cols.getD i none with
    | some v => some (Eff.sendCmd ("-break-" ++ break_command i r.type ++ " " ++ id ++ " " ++ v))
    | none => none)

/-- The `number` field of a row node, when the node has the right shape. -/
def entryNumber : ParseNode → Option String
  | .value _ _ => none
  | .array _ nodes => parse_find_value nodes "number"

/-- The row as created by the new-breakpoint branch of
`break_node_parse` (before the shared store writes): location and
display derivation, persist decision and the creation-only columns. -/
def bnp_created_row (nodes : List ParseNode) (stage : BreakStage) (type : Char)
    (leading : Bool) (scidGen : Int) : BreakRow :=
  let origloc := parse_find_locale nodes "original-location"
  let pending := (parse_find_locale nodes "pending").isSome
  let location0 : Option String :=
    if origloc.isSome then origloc
    else if c_strchr BP_WATCHES type = true then
      (parse_find_locale nodes "exp").orElse (fun _ => parse_find_locale nodes "what")
    else none
  let persist := leading && decide (stage = .persist) && location0.isSome &&
    c_strchr BP_KNOWNS type
  let loc := bnp_origin_adjust origloc (parse_location nodes)
  let location := if location0.isSome then location0 else loc.func
  let display := if c_strchr BP_BORTS type = true then location.map baseName else location
  bnp_new_row scidGen type display location pending (leading && c_strchr BP_BORTS type)
    (!persist)

/-- The resolved location after the new-breakpoint branch has run: the
`original-location` adjustments applied to the parsed location. -/
def bnp_created_loc (nodes : List ParseNode) : ParseLocation :=
  bnp_origin_adjust (parse_find_locale nodes "original-location") (parse_location nodes)

/-- break.c `break_node_parse`: parse one row node of a breakpoint
message into the store, threading the `BreakData` stage. -/
def break_node_parse (po : ParseOut) (node : ParseNode) : ParseOut :=
  match node with
  | .value _ _ =>
    { po with bd := { po.bd with stage := .discard },
              eff := po.eff ++ [.dcError "breaks: contains value"] }
  | .array nodeNm nodes =>
    match parse_find_value nodes "number" with
    | none =>
      { po with bd := { po.bd with stage := .discard },
                eff := po.eff ++ [.dcError "no number"] }
    | some id =>
      let text_type := (parse_find_value nodes "type").getD nodeNm
      let leading := !(id.data.contains '.')
      let enabled := decide (parse_find_value nodes "enabled" ≠ some "n")
      let times := parse_find_value nodes "times"
      let temporary := decide (parse_find_value nodes "disp" = some "del")
      let type := break_resolve_type po.bd.stage po.bd.type leading (break_type_char text_type)
      let borts := c_strchr BP_BORTS type
      let loc0 := parse_location nodes
      -- the `bd->stage != BG_APPLY` block: merge into the row already
      -- carrying this id, or create a new row
      let mc : Nat × BreakState × ParseLocation :=
        if po.bd.stage = .apply then (po.bd.iter, po.st, loc0)
        else
          match model_find (fun r => r.id = some id) po.st.rows with
          | some j => (j, po.st, loc0)
          | none =>
            let newRow := bnp_created_row nodes po.bd.stage type leading po.st.scidGen
            if leading = true then
              (po.st.rows.length, ⟨po.st.rows ++ [newRow], po.st.scidGen + 1⟩,
               bnp_created_loc nodes)
            else
              -- `gtk_list_store_insert_after` places the new row right
              -- after `iter` (at the end when `iter` is past the end)
              -- and `iter1` then points at the inserted row
              (min (po.bd.iter + 1) po.st.rows.length,
               ⟨insertAfterIdx po.st.rows po.bd.iter newRow, po.st.scidGen + 1⟩,
               bnp_created_loc nodes)
      let iter := mc.1
      let s1 := mc.2.1
      let loc := mc.2.2
      let s2 : BreakState :=
        if po.bd.stage = .apply then s1
        else ⟨modifyIdx s1.rows iter (bnp_script_write (bnp_script_value nodes)), s1.scidGen⟩
      let s3 : BreakState :=
        if borts = true ∨ po.bd.stage ≠ .apply then
          let cond := parse_find_value nodes "cond"
          let ignVal := match parse_find_value nodes "ignore" with
            | some v => some v
            | none => parse_find_value nodes "pass"
          let setIgnore := c_strchr BP_BREAKS type || decide (po.bd.stage ≠ .apply)
          ⟨modifyIdx s2.rows iter (bnp_cond_write enabled cond ignVal setIgnore), s2.scidGen⟩
        else s2
      let s4 : BreakState :=
        ⟨modifyIdx s3.rows iter
          (bnp_always_write id loc.file loc.line loc.func loc.addr (utils_atoi0 times) temporary),
         s3.scidGen⟩
      let tail : List Eff :=
        if po.bd.stage = .apply then break_iter_applied (s4.rows.getD iter {}) id
        else if po.bd.stage = .goto then [.sendCmd "-exec-continue"]
        else []
      { bd := { iter := iter, type := type, stage := .next }, st := s4,
        eff := po.eff ++ tail }

/-- `array_foreach(nodes, break_node_parse, &bd)`. -/
def break_nodes_foreach (nodes : List ParseNode) (po : ParseOut) : ParseOut :=
  nodes.foldl break_node_parse po

/-- Initial `BreakData` with a given stage; `iter` and `type` start
uninitialised (modelled as index 0 and the NUL char). -/
def initBD (stage : BreakStage) : BreakData := { iter := 0, type := Char.ofNat 0, stage := stage }

/-- The leading token dispatch of break.c `on_break_inserted`: the
starting `BreakData` selected from the correlation token.  The token
argument is what `parse_grab_token` yields, i.e. the digits after the
routing prefix (modelled from the spec's correlation-token contract;
parse.c is not part of the excerpt): `none` when the reply carries no
token. -/
def obi_start (token : Option String) (st : BreakState) : ParseOut :=
  match token with
  | none => { bd := initBD .persist, st := st, eff := [] }
  | some t =>
    match t.data with
    | [] => { bd := initBD .discard, st := st, eff := [] }
    | c :: _ =>
      if c = '0' then { bd := initBD .goto, st := st, eff := [] }
      else
        match model_find (fun r => r.scid = c_atoi t) st.rows with
        | some j => { bd := { iter := j, type := Char.ofNat 0, stage := .apply },
                      st := st, eff := [] }
        | none => { bd := initBD .persist, st := st,
                    eff := [.dcError (t ++ ": b_scid not found")] }

/-- break.c `on_break_inserted`: dispatch on the token, then fold the
row nodes through `break_node_parse`. -/
def on_break_inserted (token : Option String) (nodes : List ParseNode) (st : BreakState) :
    ParseOut :=
  break_nodes_foreach nodes (obi_start token st)

/-- break.c `break_iter_missing`. -/
def break_iter_missing (r : BreakRow) : BreakRow := { r with missing := true }

/-- break.c `break_clear`: drop the backend id and address; non-BORTS
kinds also lose the temporary flag (the varargs list is cut short by the
`-1` ternary for BORTS kinds). -/
def break_clear (r : BreakRow) : BreakRow :=
  { r with id := none, addr := none,
           temporary := if c_strchr BP_BORTS r.type = true then r.temporary else false }

/-- break.c `breaks_missing`: sweep every row still marked missing that
carries an id — discardable ones are removed, the rest are cleared. -/
def breaks_missing (st : BreakState) : BreakState :=
  { st with rows := st.rows.filterMap (fun r =>
      if r.id.isSome = true ∧ r.missing = true then
        if r.discard = true then none else some (break_clear r)
      else some r) }

/-- break.c `on_break_list`.  The body is the `body` array found inside
the lead array; `token` is the grabbed correlation token whose presence
selects the refresh (mark-missing / reparse / sweep) protocol. -/
def on_break_list (token : Option String) (body : Option (List ParseNode)) (st : BreakState) :
    ParseOut :=
  match body with
  | none => { bd := initBD .discard, st := st, eff := [.dcError "no body"] }
  | some nodes =>
    let refresh := token.isSome
    let st1 := if refresh = true then { st with rows := st.rows.map break_iter_missing } else st
    let po := break_nodes_foreach nodes { bd := initBD .discard, st := st1, eff := [] }
    if refresh = true then { po with st := breaks_missing po.st } else po

/-- break.c `on_break_created` (Unix build): parse the notification rows
in the discard stage. -/
def on_break_created (nodes : List ParseNode) (st : BreakState) : ParseOut :=
  break_nodes_foreach nodes { bd := initBD .discard, st := st, eff := [] }

/-- `!strncmp(id, pref, len) && strchr(".", id[len])`: the id equals the
prefix, or continues it with a dot (a watchpoint child id).  `strchr`
also matchesPref the terminating NUL, which is the equality case. -/
def break_sub_match (id pref : String) : Bool :=
  pref.isPrefixOf id &&
    (id.length = pref.length || id.data.getD pref.length (Char.ofNat 0) = '.')

/-- break.c `break_remove_all`: remove (or clear, when kept) every row
whose id matchesPref the prefix; returns whether any row matched. -/
def break_remove_all (pref : String) (force : Bool) (st : BreakState) : BreakState × Bool :=
  let matchesPref := fun (r : BreakRow) => match r.id with
    | some i => break_sub_match i pref
    | none => false
  let found := st.rows.any matchesPref
  ({ st with rows := st.rows.filterMap (fun r =>
      if matchesPref r = true then
        if r.discard || force then none else some (break_clear r)
      else some r) }, found)

/-- break.c `break_enable` (without the marker churn). -/
def break_enable (st : BreakState) (j : Nat) (b : Bool) : BreakState :=
  { st with rows := modifyIdx st.rows j (fun r => { r with enabled := b }) }

/-- break.c `on_break_done`: route a command completion by the first
token character: enable/disable confirmation, info query, or delete
confirmation. -/
def on_break_done (token : String) (st : BreakState) : BreakState × List Eff :=
  match token.data with
  | c :: rest =>
    if c = '0' ∨ c = '1' then
      match model_find (fun r => r.scid = c_atoi (String.mk rest)) st.rows with
      | some j => (break_enable st j (decide (c = '1')), [])
      | none => (st, [.dcError (token ++ ": b_scid not found")])
    else if c = '2' then (st, [.sendCmd ("-break-info " ++ String.mk rest)])
    else if c = '3' then
      let p := break_remove_all (String.mk rest) true st
      (p.1, if p.2 = true then [] else [.dcError (token ++ ": bid not found")])
    else (st, [.dcError (token ++ ": invalid b_oper")])
  | [] => (st, [.dcError (token ++ ": invalid b_oper")])

/-- break.c `on_break_deleted`: the lead value is the deleted id. -/
def on_break_deleted (leadId : String) (st : BreakState) : BreakState :=
  (break_remove_all leadId false st).1

/-- break.c `breaks_clear`: on disconnect, drop discardable rows and
clear the rest. -/
def breaks_clear (st : BreakState) : BreakState :=
  { st with rows := st.rows.filterMap (fun r =>
      if r.discard = true then none else some (break_clear r)) }

/-- break.c `breaks_reset`. -/
def breaks_reset (st : BreakState) : BreakState :=
  { st with rows := st.rows.map (fun r => { r with times := 0 }) }

/-- Modelled from the spec (debug.h is not part of the excerpt).
break.c only distinguishes `state == DS_INACTIVE` and
`state & DS_SENDABLE`; spec §7(c) records a third class, a session that
is active yet "in a state that cannot accept" a command (busy running
one), whose requests are rejected with an audible notice. -/
inductive DebugState where
  | inactive
  | busy
  | sendable
  deriving DecidableEq

/-- `debug_state() & DS_SENDABLE`. -/
def dsSendable : DebugState → Bool
  | .sendable => true
  | _ => false

/-- `%d` rendering of a gboolean. -/
def boolD (b : Bool) : String := if b = true then "1" else "0"

/-- break.c `on_break_enabled_toggled`: the user clicked the enabled
checkbox of row `j`.  Inactive session or id-less row: flip locally;
sendable: send `-break-enable`/`-break-disable` and leave the row
untouched; otherwise beep. -/
def on_break_enabled_toggled (ds : DebugState) (j : Nat) (st : BreakState) :
    BreakState × List Eff :=
  match st.rows[j]? with
  | none => (st, [])
  | some r =>
    let enabled := !r.enabled
    if ds = .inactive ∨ r.id = none then (break_enable st j enabled, [])
    else if dsSendable ds = true then
      (st, [.sendCmd ("02" ++ boolD enabled ++ toString r.scid ++ "-break-" ++
        (if enabled = true then "en" else "dis") ++ "able " ++ r.id.getD "")])
    else (st, [.beep])

/-- break.c `break_remove` (without the marker churn). -/
def break_remove (st : BreakState) (j : Nat) : BreakState :=
  { st with rows := st.rows.eraseIdx j }

/-- break.c `break_delete`: remove directly when inactive or id-less,
else send a delete command correlated for removal on confirmation. -/
def break_delete (ds : DebugState) (j : Nat) (st : BreakState) : BreakState × List Eff :=
  match st.rows[j]? with
  | none => (st, [])
  | some r =>
    if ds = .inactive ∨ r.id = none then (break_remove st j, [])
    else (st, [.sendCmd ("023" ++ r.id.getD "" ++ "-break-delete " ++ r.id.getD "")])

/-- Modelled from the spec (utils.c is not part of the excerpt): path
comparison between a row's file and a document path; plain string
comparison on Unix, never matching a NULL file. -/
def utils_filenamecmp_eq : Option String → String → Bool
  | some f, p => f = p
  | none, _ => false

/-- break.c `break_relocate`: rebuild file, line, display and location
from a real path and line. -/
def break_relocate (r : BreakRow) (real_path : String) (line : Int) : BreakRow :=
  let location := real_path ++ ":" ++ toString line
  { r with file := some real_path, line := line,
           display := some (baseName location), location := some location }

/-- Accumulator of `on_break_toggle`'s scan over the store. -/
structure ToggleScan where
  found : Int := 0
  idx : Nat := 0
  stop : Bool := false
  deriving DecidableEq

/-- break.c `on_break_toggle`: toggle a breakpoint at the current
document line.  Two distinct breakpoints there: message box; one found:
delete it; none and a session: send `-break-insert`; none and inactive:
create a local row. -/
def on_break_toggle (ds : DebugState) (real_path : String) (doc_line : Int) (st : BreakState) :
    BreakState × List Eff :=
  let scan : ToggleScan := (st.rows.enum.foldl (fun acc p =>
    if acc.stop = true then acc
    else if p.2.line = doc_line ∧ utils_filenamecmp_eq p.2.file real_path = true then
      if acc.found ≠ 0 ∧ acc.found ≠ utils_atoi0 p.2.id then { acc with stop := true }
      else { found := match p.2.id with | some i => c_atoi i | none => -1,
             idx := p.1, stop := false }
    else acc) {})
  if scan.stop = true then (st, [.msgbox])
  else if scan.found ≠ 0 then break_delete ds scan.idx st
  else if ds ≠ .inactive then
    (st, [.sendCmd ("-break-insert " ++ real_path ++ ":" ++ toString doc_line)])
  else
    let row := break_relocate {} real_path doc_line
    let row := { row with scid := st.scidGen + 1, type := 'b', enabled := true,
                          runApply := true }
    (⟨st.rows ++ [row], st.scidGen + 1⟩, [])

/-- One persisted breakpoint record as read by `break_load`; the field
defaults are the `utils_get_setting_*` defaults, with `run_apply` kept
optional because its default depends on the kind. -/
structure BreakRecord where
  line : Int := 0
  type : Int := 0
  enabled : Bool := true
  pending : Bool := false
  run_apply : Option Bool := none
  temporary : Bool := false
  file : Option String := none
  display : Option String := none
  func : Option String := none
  ignore : Option String := none
  cond : Option String := none
  script : Option String := none
  location : Option String := none
  deriving DecidableEq

/-- The `(char)` conversion applied by `strchr` to an `int` argument:
truncation to the low byte. -/
def intToChar (t : Int) : Char := Char.ofNat (t % 256).toNat

/-- Modelled from the spec (utils.c is not part of the excerpt): the
numeric-column validator applied to the loaded ignore count; the
identity here, since only presence matters to the claims. -/
def validate_column (s : Option String) : Option String := s

/-- break.c `break_load`: turn one persisted record into a row when the
kind passes the `strchr(BP_KNOWNS, type)` test, a location is present,
and the line is non-negative; report whether a row was made. -/
def break_load (rec : BreakRecord) (st : BreakState) : BreakState × Bool :=
  let typeChar := intToChar rec.type
  let run_apply := rec.run_apply.getD (c_strchr BP_BORTS typeChar)
  if rec.type ≠ 0 ∧ c_strchr BP_KNOWNS typeChar = true ∧ rec.location.isSome = true ∧
      0 ≤ rec.line then
    let line := if rec.file = none then 0 else rec.line
    let row : BreakRow :=
      { file := rec.file, line := line, scid := st.scidGen + 1, type := typeChar,
        enabled := rec.enabled, display := rec.display, func := rec.func,
        ignore := validate_column rec.ignore, cond := rec.cond, script := rec.script,
        pending := rec.pending, location := rec.location, runApply := run_apply,
        temporary := rec.temporary }
    (⟨st.rows ++ [row], st.scidGen + 1⟩, true)
  else (st, false)

/-- `strchr(location, ':')` followed by `isdigit(split[1])`: the
location string embeds a line number after its first colon. -/
def locationHasLine : Option String → Bool
  | none => false
  | some l =>
    match splitFirstColon l.data with
    | some (_, post) => (post.head?.map Char.isDigit).getD false
    | none => false

/-- The per-row body of break.c `breaks_delta` (markers elided): `none`
means the row is removed because a deletion consumed its line. -/
def break_delta_row (real_path : String) (start delta : Int) (active : Bool) (r : BreakRow) :
    Option BreakRow :=
  let line := r.line - 1
  if 0 ≤ line ∧ start ≤ line ∧ utils_filenamecmp_eq r.file real_path = true then
    if active = true then some r
    else if 0 < delta ∨ start - delta ≤ line then
      let nline := line + delta + 1
      if locationHasLine r.location = true then some (break_relocate r real_path nline)
      else some { r with line := nline }
    else none
  else some r

/-- break.c `breaks_delta`: relocate every breakpoint of the edited file
at or after the edit point. -/
def breaks_delta (real_path : String) (start delta : Int) (active : Bool) (st : BreakState) :
    BreakState :=
  { st with rows := st.rows.filterMap (break_delta_row real_path start delta active) }

/-- break.c `break_apply`: the single command string rebuilt from a row;
`thread` and `thread_id` model the `-p` scoping arguments. -/
def break_apply_command (thread : Bool) (thread_id : Option String) (r : BreakRow) : String :=
  let borts := c_strchr BP_BORTS r.type
  let c0 := "02" ++ toString r.scid ++ "-break-" ++ (if borts = true then "insert" else "watch")
  let c1 :=
    if borts = true then
      let a := if r.temporary = true then c0 ++ " -t" else c0
      let b := if c_strchr BP_HARDWS r.type = true then a ++ " -h" else a
      let c := if c_strchr BP_BREAKS r.type = true then
          match r.ignore with
          | some i => b ++ " -i " ++ i
          | none => b
        else b ++ " -a"
      let d := if r.enabled = false then c ++ " -d" else c
      let e := match r.cond with
        | some cd => d ++ " -c \"" ++ cd ++ "\""
        | none => d
      let f := if r.pending = true then e ++ " -f" else e
      if thread = true then
        match thread_id with
        | some t => f ++ " -p " ++ t
        | none => f
      else f
    else if c_strchr BP_WATOPTS r.type = true then c0 ++ " -" ++ r.type.toString
    else c0
  c1 ++ " " ++ r.location.getD "(null)"

/-- Thread lifecycle events consumed by thread.c; the flag records
whether the notification carried a usable thread id. -/
inductive ThreadEvent where
  | created (hasTid : Bool)
  | exited (hasTid : Bool)
  deriving DecidableEq

/-- Result of one lifecycle step: the new `thread_count` and whether the
session-startup / session-shutdown side effects ran. -/
structure LifeStep where
  count : Nat
  startup : Bool
  shutdown : Bool
  deriving DecidableEq

/-- The `thread_count` lifecycle portion of thread.c's
`on_thread_created` and `on_thread_exited`: creation increments the
count unconditionally, firing the startup block when the count was zero;
exit decrements only a positive count (`iff (thread_count, "extra
exit")`), firing the shutdown block when the count reaches zero.  Row
bookkeeping is independent of the counter and is elided here. -/
def thread_life_step (count : Nat) : ThreadEvent → LifeStep
  | .created _ => { count := count + 1, startup := decide (count = 0), shutdown := false }
  | .exited _ =>
    if count = 0 then { count := count, startup := false, shutdown := false }
    else { count := count - 1, startup := false, shutdown := decide (count = 1) }

/-- The step trace of a notification sequence from a given count. -/
def thread_life_trace : Nat → List ThreadEvent → List LifeStep
  | _, [] => []
  | c, e :: es =>
    let s := thread_life_step c e
    s :: thread_life_trace s.count es

/-- The final `thread_count` after a notification sequence. -/
def thread_life_count (c : Nat) : List ThreadEvent → Nat
  | [] => c
  | e :: es => thread_life_count (thread_life_step c e).count es

def startupCount (l : List LifeStep) : Nat := (l.filter (fun s => s.startup)).length

def shutdownCount (l : List LifeStep) : Nat := (l.filter (fun s => s.shutdown)).length

/-- `g_strsplit_set(s, "\t", -1)`: tab-splitting that yields an empty
vector for the empty string and keeps empty fields otherwise. -/
def g_strsplit_tab (s : String) : List String :=
  if s.isEmpty then [] else s.split (fun c => c = '\t')

/-- The inner column loop of tableconvert.c `convert_to_table_sql`:
columns joined by `','`. -/
def sqlRowCols (cols : List String) : String := String.intercalate "','" cols

/-- tableconvert.c `convert_to_table_sql` (rows are the NULL-terminated
split of the selection): one `\t('...')` tuple per row, with `,` after
each tuple that is not the last. -/
def convert_to_table_sql : List String → String
  | [] => ""
  | r :: rest =>
    "\t('" ++ sqlRowCols (g_strsplit_tab r) ++
      (if rest.isEmpty then "')\n" else "'),\n") ++ convert_to_table_sql rest

/-- The tuple the claim describes for one row: tab-separated columns,
each single-quoted, joined by commas, wrapped in parentheses. -/
def sqlTuple (r : String) : String := "\t('" ++ sqlRowCols (g_strsplit_tab r) ++ "')"

/-- Formalisation of the claim's output shape: one tuple line per row,
a comma after every tuple except the last. -/
def sqlSpecLines : List String → String
  | [] => ""
  | [r] => sqlTuple r ++ "\n"
  | r :: rest => sqlTuple r ++ ",\n" ++ sqlSpecLines rest

theorem convert_sql_single (r : String) :
    convert_to_table_sql [r] = "\t('" ++ sqlRowCols (g_strsplit_tab r) ++ "')\n" := by
  rw [show convert_to_table_sql [r]
      = "\t('" ++ sqlRowCols (g_strsplit_tab r) ++ "')\n" ++ "" from rfl,
    String.append_empty]

theorem convert_sql_cons_cons (r r2 : String) (rest : List String) :
    convert_to_table_sql (r :: r2 :: rest)
      = "\t('" ++ sqlRowCols (g_strsplit_tab r) ++ "'),\n"
        ++ convert_to_table_sql (r2 :: rest) := rfl

theorem str_close_nl : ("')" : String) ++ "\n" = "')\n" := rfl

theorem str_close_comma_nl : ("')" : String) ++ ",\n" = "'),\n" := rfl

/-- **C10.** For every non-empty row array, `convert_to_table_sql`
emits exactly one parenthesized tuple line per input row — the row's
tab-separated columns joined by `,` with each column single-quoted —
appends a comma after every tuple except the last, and the generated
value list therefore never ends with a trailing comma: it always ends
with the unadorned closer of the last tuple. -/
theorem tableconvert_sql_shape (rows : List String) :
    convert_to_table_sql rows = sqlSpecLines rows ∧
      (rows ≠ [] → ∃ s, convert_to_table_sql rows = s ++ "')\n") := by
  constructor
  · induction rows with
    | nil => rfl
    | cons r rest ih =>
      cases rest with
      | nil =>
        rw [convert_sql_single]
        simp [sqlSpecLines, sqlTuple, ← str_close_nl, String.append_assoc]
      | cons r2 rest2 =>
        rw [convert_sql_cons_cons, ih]
        simp [sqlSpecLines, sqlTuple, ← str_close_comma_nl, String.append_assoc]
  · intro h
    induction rows with
    | nil => exact absurd rfl h
    | cons r rest ih =>
      cases rest with
      | nil =>
        exact ⟨"\t('" ++ sqlRowCols (g_strsplit_tab r), by rw [convert_sql_single]⟩
      | cons r2 rest2 =>
        obtain ⟨s, hs⟩ := ih (by simp)
        refine ⟨"\t('" ++ sqlRowCols (g_strsplit_tab r) ++ "'),\n" ++ s, ?_⟩
        rw [convert_sql_cons_cons, hs]
        simp [String.append_assoc]

/-- **C10 witness.** The theorem applied to a concrete two-row input. -/
theorem tableconvert_sql_shape_witness :
    ∃ s, convert_to_table_sql ["a\tb", "c"] = s ++ "')\n" :=
  (tableconvert_sql_shape ["a\tb", "c"]).2 (by decide)

/-- **C6.** Session lifecycle edges fire exactly once: a step of the
thread lifecycle runs the startup side effects exactly on a
thread-created notification with live count 0 (the 0 → 1 transition)
and the shutdown side effects exactly on a thread-exited notification
with live count 1 (the transition back to 0); consequently over any
notification sequence the number of startup firings exceeds the number
of shutdown firings by exactly one while threads are live and by zero
otherwise — never once per individual thread event. -/
theorem thread_lifecycle_edges :
    (∀ (c : Nat) (e : ThreadEvent),
        ((thread_life_step c e).startup = true ↔ (∃ b, e = .created b) ∧ c = 0)
      ∧ ((thread_life_step c e).shutdown = true ↔ (∃ b, e = .exited b) ∧ c = 1))
    ∧ ∀ (events : List ThreadEvent),
        startupCount (thread_life_trace 0 events)
          = shutdownCount (thread_life_trace 0 events)
            + (if 0 < thread_life_count 0 events then 1 else 0) := by
  have hstep : ∀ (c : Nat) (e : ThreadEvent),
      ((thread_life_step c e).startup = true ↔ (∃ b, e = .created b) ∧ c = 0)
    ∧ ((thread_life_step c e).shutdown = true ↔ (∃ b, e = .exited b) ∧ c = 1) := by
    intro c e
    cases e with
    | created b =>
      constructor
      · simp [thread_life_step]
      · simp [thread_life_step]
    | exited b =>
      constructor
      · by_cases hc : c = 0 <;> simp [thread_life_step, hc]
      · by_cases hc : c = 0 <;> simp [thread_life_step, hc]
  refine ⟨hstep, ?_⟩
  have hsc : ∀ (s : LifeStep) (l : List LifeStep),
      startupCount (s :: l) = startupCount l + (if s.startup = true then 1 else 0) := by
    intro s l
    by_cases h : s.startup = true <;> simp [startupCount, List.filter_cons, h] <;> omega
  have hdc : ∀ (s : LifeStep) (l : List LifeStep),
      shutdownCount (s :: l) = shutdownCount l + (if s.shutdown = true then 1 else 0) := by
    intro s l
    by_cases h : s.shutdown = true <;> simp [shutdownCount, List.filter_cons, h] <;> omega
  have key : ∀ (events : List ThreadEvent) (c : Nat),
      startupCount (thread_life_trace c events) + (if 0 < c then 1 else 0)
        = shutdownCount (thread_life_trace c events)
          + (if 0 < thread_life_count c events then 1 else 0) := by
    intro events
    induction events with
    | nil => intro c; simp [thread_life_trace, thread_life_count, startupCount, shutdownCount]
    | cons e rest ih =>
      intro c
      rw [show thread_life_trace c (e :: rest)
            = thread_life_step c e :: thread_life_trace (thread_life_step c e).count rest
          from rfl,
        show thread_life_count c (e :: rest)
            = thread_life_count (thread_life_step c e).count rest from rfl,
        hsc, hdc]
      cases e with
      | created b =>
        have hstepc : thread_life_step c (.created b) = ⟨c + 1, decide (c = 0), false⟩ := rfl
        rw [hstepc]
        have hthis := ih (c + 1)
        by_cases hc : c = 0
        · subst hc
          simp at hthis ⊢ <;> omega
        · have h0 : 0 < c := Nat.pos_of_ne_zero hc
          simp [hc, h0] at hthis ⊢ <;> omega
      | exited b =>
        by_cases hc : c = 0
        · subst hc
          have hstepc : thread_life_step 0 (.exited b) = ⟨0, false, false⟩ := rfl
          rw [hstepc]
          have hthis := ih 0
          simp at hthis ⊢ <;> omega
        · have h0 : 0 < c := Nat.pos_of_ne_zero hc
          have hstepc : thread_life_step c (.exited b)
              = ⟨c - 1, false, decide (c = 1)⟩ := by
            simp [thread_life_step, hc]
          rw [hstepc]
          have hthis := ih (c - 1)
          by_cases hc1 : c = 1
          · subst hc1
            simp at hthis ⊢ <;> omega
          · have h1 : 0 < c - 1 := by omega
            simp [hc1, h0, h1] at hthis ⊢ <;> omega
  intro events
  have := key events 0
  simpa using this

theorem modifyIdx_length {α : Type} (l : List α) (i : Nat) (f : α → α) :
    (modifyIdx l i f).length = l.length := by
  induction l generalizing i with
  | nil => rfl
  | cons a rest ih =>
    cases i with
    | zero => rfl
    | succ n => simp [modifyIdx, ih]

theorem modifyIdx_modifyIdx {α : Type} (l : List α) (i : Nat) (f g : α → α) :
    modifyIdx (modifyIdx l i f) i g = modifyIdx l i (fun x => g (f x)) := by
  induction l generalizing i with
  | nil => rfl
  | cons a rest ih =>
    cases i with
    | zero => rfl
    | succ n => simp [modifyIdx, ih]

theorem modifyIdx_id {α : Type} (l : List α) (i : Nat) :
    modifyIdx l i (fun x => x) = l := by
  induction l generalizing i with
  | nil => rfl
  | cons a rest ih =>
    cases i with
    | zero => rfl
    | succ n => simp [modifyIdx, ih]

theorem modifyIdx_append_length {α : Type} (l : List α) (x : α) (f : α → α) :
    modifyIdx (l ++ [x]) l.length f = l ++ [f x] := by
  induction l with
  | nil => rfl
  | cons a rest ih => simp [modifyIdx, ih]

theorem insertAfterIdx_length {α : Type} (l : List α) (i : Nat) (x : α) :
    (insertAfterIdx l i x).length = l.length + 1 := by
  induction l generalizing i with
  | nil => rfl
  | cons a rest ih =>
    cases i with
    | zero => rfl
    | succ n => simp [insertAfterIdx, ih]

theorem modifyIdx_insertAfter {α : Type} (l : List α) (i : Nat) (x : α) (f : α → α) :
    modifyIdx (insertAfterIdx l i x) (min (i + 1) l.length) f = insertAfterIdx l i (f x) := by
  induction l generalizing i with
  | nil => rfl
  | cons a rest ih =>
    cases i with
    | zero => simp [insertAfterIdx, modifyIdx]
    | succ n =>
      have : min (n + 1 + 1) (a :: rest).length = (min (n + 1) rest.length) + 1 := by
        simp [List.length_cons]
        omega
      rw [this]
      simp [insertAfterIdx, modifyIdx, ih]

theorem getElem?_modifyIdx_self {α : Type} (l : List α) (i : Nat) (f : α → α) :
    (modifyIdx l i f)[i]? = l[i]?.map f := by
  induction l generalizing i with
  | nil => rfl
  | cons a rest ih =>
    cases i with
    | zero => simp [modifyIdx]
    | succ n => simpa [modifyIdx] using ih n

theorem getElem?_modifyIdx_ne {α : Type} (l : List α) (i j : Nat) (f : α → α) (h : i ≠ j) :
    (modifyIdx l i f)[j]? = l[j]? := by
  induction l generalizing i j with
  | nil => rfl
  | cons a rest ih =>
    cases i with
    | zero =>
      cases j with
      | zero => exact absurd rfl h
      | succ m => simp [modifyIdx]
    | succ n =>
      cases j with
      | zero => simp [modifyIdx]
      | succ m => simpa [modifyIdx] using ih n m (by omega)

theorem model_find_eq_none {p : BreakRow → Bool} {l : List BreakRow} :
    model_find p l = none ↔ ∀ r ∈ l, p r = false := by
  induction l with
  | nil => simp [model_find]
  | cons a rest ih =>
    by_cases h : p a = true
    · simp [model_find, h]
    · have hf : p a = false := Bool.eq_false_iff.mpr h
      rw [show model_find p (a :: rest)
          = (model_find p rest).map (· + 1) by simp [model_find, h]]
      simp [Option.map_eq_none', ih, hf]

theorem model_find_some {p : BreakRow → Bool} {l : List BreakRow} {j : Nat}
    (h : model_find p l = some j) :
    j < l.length ∧ ∃ r, l[j]? = some r ∧ p r = true := by
  induction l generalizing j with
  | nil => cases h
  | cons a rest ih =>
    by_cases hp : p a = true
    · simp [model_find, hp] at h
      subst h
      exact ⟨by simp, a, by simp, hp⟩
    · rw [show model_find p (a :: rest)
          = (model_find p rest).map (· + 1) by simp [model_find, hp]] at h
      rw [Option.map_eq_some'] at h
      obtain ⟨m, hm, hj⟩ := h
      obtain ⟨hlt, r, hr, hpr⟩ := ih hm
      subst hj
      exact ⟨by simpa using hlt, r, by simpa using hr, hpr⟩

theorem model_find_first {p : BreakRow → Bool} {l : List BreakRow} {j : Nat}
    (h : model_find p l = some j) :
    ∀ i, i < j → ∀ r, l[i]? = some r → p r = false := by
  induction l generalizing j with
  | nil => cases h
  | cons a rest ih =>
    by_cases hp : p a = true
    · simp [model_find, hp] at h
      subst h
      intro i hi
      cases hi
    · rw [show model_find p (a :: rest)
          = (model_find p rest).map (· + 1) by simp [model_find, hp]] at h
      rw [Option.map_eq_some'] at h
      obtain ⟨m, hm, hj⟩ := h
      subst hj
      intro i hi r hr
      cases i with
      | zero =>
        simp at hr
        subst hr
        exact Bool.eq_false_iff.mpr hp
      | succ n =>
        have hr' : rest[n]? = some r := by simpa using hr
        exact ih hm n (by omega) r hr'

theorem model_find_congr {p : BreakRow → Bool} {l l' : List BreakRow}
    (hlen : l'.length = l.length)
    (h : ∀ i : Nat, (l'[i]?.map p) = (l[i]?.map p)) :
    model_find p l' = model_find p l := by
  induction l generalizing l' with
  | nil =>
    cases l' with
    | nil => rfl
    | cons a rest => cases hlen
  | cons a rest ih =>
    cases l' with
    | nil => cases hlen
    | cons a' rest' =>
      have h0 := h 0
      simp at h0
      have htail : model_find p rest' = model_find p rest :=
        ih (by simpa using hlen) (fun i => by simpa using h (i + 1))
      by_cases hp : p a = true
      · simp [model_find, hp, h0 ▸ hp]
      · have hp' : p a' = false := by
          rw [h0]; exact Bool.eq_false_iff.mpr hp
        simp [model_find, hp', Bool.eq_false_iff.mpr hp, htail]

/-- The writes `break_node_parse` performs on a row it merges into or
has just created, when the stage is not the apply stage: the script
column, the conditional enabled/cond/ignore columns (all written in
that case), and the unconditional refresh with the given location. -/
def bnp_list_write (nodes : List ParseNode) (id : String) (loc : ParseLocation)
    (r : BreakRow) : BreakRow :=
  bnp_always_write id loc.file loc.line loc.func loc.addr
    (utils_atoi0 (parse_find_value nodes "times"))
    (decide (parse_find_value nodes "disp" = some "del"))
    (bnp_cond_write (decide (parse_find_value nodes "enabled" ≠ some "n"))
      (parse_find_value nodes "cond")
      (match parse_find_value nodes "ignore" with
       | some v => some v
       | none => parse_find_value nodes "pass")
      true
      (bnp_script_write (bnp_script_value nodes) r))

/-- The writes `break_node_parse` performs in the apply stage: no
script write, the conditional columns only for BORTS kinds and without
the ignore column unless a plain break kind, then the unconditional
refresh. -/
def bnp_apply_write (nodes : List ParseNode) (id : String) (type : Char)
    (r : BreakRow) : BreakRow :=
  bnp_always_write id (parse_location nodes).file (parse_location nodes).line
    (parse_location nodes).func (parse_location nodes).addr
    (utils_atoi0 (parse_find_value nodes "times"))
    (decide (parse_find_value nodes "disp" = some "del"))
    (if c_strchr BP_BORTS type = true then
       bnp_cond_write (decide (parse_find_value nodes "enabled" ≠ some "n"))
         (parse_find_value nodes "cond")
         (match parse_find_value nodes "ignore" with
          | some v => some v
          | none => parse_find_value nodes "pass")
         (c_strchr BP_BREAKS type) r
     else r)

/-- The type char `break_node_parse` resolves for a row node. -/
def bnpType (po : ParseOut) (nm : String) (nodes : List ParseNode) (id : String) : Char :=
  break_resolve_type po.bd.stage po.bd.type (!(id.data.contains '.'))
    (break_type_char ((parse_find_value nodes "type").getD nm))

/-- The trailing effect of a non-apply parse step. -/
def gotoEff (stage : BreakStage) : List Eff :=
  if stage = .goto then [.sendCmd "-exec-continue"] else []

theorem break_node_parse_eq_value (po : ParseOut) (n v : String) :
    break_node_parse po (.value n v)
      = { po with bd := { po.bd with stage := .discard },
                  eff := po.eff ++ [.dcError "breaks: contains value"] } := rfl

theorem break_node_parse_eq_nonum (po : ParseOut) (nm : String) (nodes : List ParseNode)
    (h : parse_find_value nodes "number" = none) :
    break_node_parse po (.array nm nodes)
      = { po with bd := { po.bd with stage := .discard },
                  eff := po.eff ++ [.dcError "no number"] } := by
  simp [break_node_parse, h]

theorem break_node_parse_eq_merge (po : ParseOut) (nm : String) (nodes : List ParseNode)
    (id : String) (j : Nat)
    (hn : parse_find_value nodes "number" = some id)
    (hst : po.bd.stage ≠ .apply)
    (hj : model_find (fun r => r.id = some id) po.st.rows = some j) :
    break_node_parse po (.array nm nodes)
      = { bd := { iter := j, type := bnpType po nm nodes id, stage := .next },
          st := ⟨modifyIdx po.st.rows j (bnp_list_write nodes id (parse_location nodes)),
                 po.st.scidGen⟩,
          eff := po.eff ++ gotoEff po.bd.stage } := by
  have hd : decide (po.bd.stage ≠ .apply) = true := by simp [hst]
  simp only [break_node_parse, hn, hst, hj, bnp_list_write, bnpType, gotoEff,
    modifyIdx_modifyIdx, hd, Bool.or_true, if_false, ite_false, ite_true, or_true,
    if_neg hst, if_pos (Or.inr hst), not_false_eq_true]
  try rfl

theorem break_node_parse_eq_create (po : ParseOut) (nm : String) (nodes : List ParseNode)
    (id : String)
    (hn : parse_find_value nodes "number" = some id)
    (hst : po.bd.stage ≠ .apply)
    (hnone : model_find (fun r => r.id = some id) po.st.rows = none)
    (hlead : id.data.contains '.' = false) :
    break_node_parse po (.array nm nodes)
      = { bd := { iter := po.st.rows.length, type := bnpType po nm nodes id, stage := .next },
          st := ⟨po.st.rows ++
              [bnp_list_write nodes id (bnp_created_loc nodes)
                (bnp_created_row nodes po.bd.stage (bnpType po nm nodes id) true
                  po.st.scidGen)],
            po.st.scidGen + 1⟩,
          eff := po.eff ++ gotoEff po.bd.stage } := by
  have hd : decide (po.bd.stage ≠ .apply) = true := by simp [hst]
  simp only [break_node_parse, hn, hst, hnone, hlead, bnp_list_write, bnpType, gotoEff,
    modifyIdx_modifyIdx, modifyIdx_append_length, hd, Bool.or_true, Bool.not_false,
    Bool.false_eq_true, Bool.true_eq_false, if_false, ite_false, ite_true, or_true,
    if_neg hst, if_pos (Or.inr hst), not_false_eq_true]
  try rfl

theorem break_node_parse_eq_create_dotted (po : ParseOut) (nm : String)
    (nodes : List ParseNode) (id : String)
    (hn : parse_find_value nodes "number" = some id)
    (hst : po.bd.stage ≠ .apply)
    (hnone : model_find (fun r => r.id = some id) po.st.rows = none)
    (hlead : id.data.contains '.' = true) :
    break_node_parse po (.array nm nodes)
      = { bd := { iter := min (po.bd.iter + 1) po.st.rows.length,
                  type := bnpType po nm nodes id, stage := .next },
          st := ⟨insertAfterIdx po.st.rows po.bd.iter
              (bnp_list_write nodes id (bnp_created_loc nodes)
                (bnp_created_row nodes po.bd.stage (bnpType po nm nodes id) false
                  po.st.scidGen)),
            po.st.scidGen + 1⟩,
          eff := po.eff ++ gotoEff po.bd.stage } := by
  have hd : decide (po.bd.stage ≠ .apply) = true := by simp [hst]
  simp only [break_node_parse, hn, hst, hnone, hlead, bnp_list_write, bnpType, gotoEff,
    modifyIdx_modifyIdx, modifyIdx_insertAfter, hd, Bool.or_true, Bool.not_true,
    Bool.false_eq_true, Bool.true_eq_false, if_false, ite_false, ite_true, or_true,
    if_neg hst, if_pos (Or.inr hst), not_false_eq_true]
  try rfl

theorem bnp_apply_write_borts (nodes : List ParseNode) (id : String) (type : Char)
    (hb : c_strchr BP_BORTS type = true) :
    bnp_apply_write nodes id type = fun r =>
      bnp_always_write id (parse_location nodes).file (parse_location nodes).line
        (parse_location nodes).func (parse_location nodes).addr
        (utils_atoi0 (parse_find_value nodes "times"))
        (decide (parse_find_value nodes "disp" = some "del"))
        (bnp_cond_write (decide (parse_find_value nodes "enabled" ≠ some "n"))
          (parse_find_value nodes "cond")
          (match parse_find_value nodes "ignore" with
           | some v => some v
           | none => parse_find_value nodes "pass")
          (c_strchr BP_BREAKS type) r) := by
  funext r
  simp [bnp_apply_write, hb]

theorem bnp_apply_write_nonborts (nodes : List ParseNode) (id : String) (type : Char)
    (hb : c_strchr BP_BORTS type = false) :
    bnp_apply_write nodes id type = fun r =>
      bnp_always_write id (parse_location nodes).file (parse_location nodes).line
        (parse_location nodes).func (parse_location nodes).addr
        (utils_atoi0 (parse_find_value nodes "times"))
        (decide (parse_find_value nodes "disp" = some "del")) r := by
  funext r
  simp [bnp_apply_write, hb]

theorem break_node_parse_eq_apply (po : ParseOut) (nm : String) (nodes : List ParseNode)
    (id : String)
    (hn : parse_find_value nodes "number" = some id)
    (hst : po.bd.stage = .apply) :
    break_node_parse po (.array nm nodes)
      = { bd := { iter := po.bd.iter, type := bnpType po nm nodes id, stage := .next },
          st := ⟨modifyIdx po.st.rows po.bd.iter
              (bnp_apply_write nodes id (bnpType po nm nodes id)), po.st.scidGen⟩,
          eff := po.eff ++ break_iter_applied
            ((modifyIdx po.st.rows po.bd.iter
              (bnp_apply_write nodes id (bnpType po nm nodes id))).getD po.bd.iter {}) id } := by
  have h2 : (BreakStage.apply ≠ BreakStage.apply) = False := by simp
  have h1 : decide (BreakStage.apply ≠ BreakStage.apply) = false := by decide
  by_cases hb : c_strchr BP_BORTS (bnpType po nm nodes id) = true
  · simp only [bnpType] at hb
    rw [hst] at hb
    simp only [break_node_parse, hn, hst, bnpType, h1, h2, hb,
      decide_False, Bool.or_false, or_false, if_true, ite_true, if_false, ite_false,
      Bool.false_eq_true, modifyIdx_modifyIdx, eq_self_iff_true]
    rw [bnp_apply_write_borts nodes id _ hb]
    try rfl
  · simp only [bnpType] at hb
    rw [hst] at hb
    have hb' : c_strchr BP_BORTS
        (break_resolve_type BreakStage.apply po.bd.type (!id.data.contains '.')
          (break_type_char ((parse_find_value nodes "type").getD nm))) = false :=
      Bool.eq_false_iff.mpr hb
    simp only [break_node_parse, hn, hst, bnpType, h1, h2, hb',
      decide_False, Bool.or_false, or_false, if_true, ite_true, if_false, ite_false,
      Bool.false_eq_true, modifyIdx_modifyIdx, eq_self_iff_true]
    rw [bnp_apply_write_nonborts nodes id _ hb']
    try rfl

/-- A state with one backend-identified row, used to exercise the toggle
routing at a busy (active but non-sendable) session. -/
def cx4_state : BreakState := ⟨[{ id := some "2", scid := 3, enabled := true, type := 'b' }], 3⟩

/-- **C4 counterexample.** At a busy session — active, hence not
inactive, but not sendable — toggling a row that has a backend id
neither writes through to the backend nor mutates the local row: it
only beeps.  This refutes the claim that "in every other case (inactive
session, or row without a backend id) the toggle mutates the local
row's enabled flag directly", since this case is neither of those and
mutates nothing. -/
theorem break_toggle_routing_counterexample :
    on_break_enabled_toggled .busy 0 cx4_state = (cx4_state, [.beep]) := by decide

/-- The claim's scenario row: id "2", enabled, a break kind with a
location, marked for re-apply. -/
def sc4_row : BreakRow :=
  { id := some "2", scid := 1, type := 'b', enabled := true, runApply := true,
    location := some "/a.c:10" }

/-- **C4 amended.** Toggling enabled writes through to the backend
(`-break-enable`/`-break-disable`, local row unchanged) exactly when
the session is active and sendable and the row has a backend id; when
the session is inactive or the row has no backend id the toggle mutates
the local row's enabled flag with no command emitted; in the remaining
case — an active but non-sendable session with an identified row — the
action is rejected with a beep and neither a command nor a mutation
happens.  Toggling the scenario row while disconnected flips its
enabled flag locally, and reapplying it emits a breakpoint-insert
command whose `-d` flag reflects the updated value. -/
theorem break_toggle_routing (ds : DebugState) (j : Nat) (st : BreakState) (r : BreakRow)
    (h : st.rows[j]? = some r) :
    ((ds = .inactive ∨ r.id = none) →
        on_break_enabled_toggled ds j st = (break_enable st j (!r.enabled), []))
    ∧ (ds ≠ .inactive → r.id.isSome = true → dsSendable ds = true →
        on_break_enabled_toggled ds j st
          = (st, [.sendCmd ("02" ++ boolD (!r.enabled) ++ toString r.scid ++ "-break-" ++
              (if (!r.enabled) = true then "en" else "dis") ++ "able " ++ r.id.getD "")]))
    ∧ (ds ≠ .inactive → r.id.isSome = true → dsSendable ds = false →
        on_break_enabled_toggled ds j st = (st, [.beep]))
    ∧ (on_break_enabled_toggled .inactive 0 ⟨[sc4_row], 1⟩
        = (⟨[{ sc4_row with enabled := false }], 1⟩, [])
      ∧ break_apply_command false none { sc4_row with enabled := false }
          = "021-break-insert -d /a.c:10"
      ∧ break_apply_command false none sc4_row = "021-break-insert /a.c:10") := by
  refine ⟨?_, ?_, ?_, by decide⟩
  · intro hcase
    simp only [on_break_enabled_toggled, h]
    rw [if_pos hcase]
  · intro h1 h2 h3
    have hne : ¬ (ds = .inactive ∨ r.id = none) := by
      rintro (hd | hid)
      · exact h1 hd
      · rw [hid] at h2; cases h2
    simp only [on_break_enabled_toggled, h]
    rw [if_neg hne, if_pos h3]
  · intro h1 h2 h3
    have hne : ¬ (ds = .inactive ∨ r.id = none) := by
      rintro (hd | hid)
      · exact h1 hd
      · rw [hid] at h2; cases h2
    simp only [on_break_enabled_toggled, h]
    rw [if_neg hne, if_neg (by simp [h3])]

/-- **C4 witness.** The amended theorem applied at the busy session and
the concrete one-row state. -/
theorem break_toggle_routing_witness :
    on_break_enabled_toggled .busy 0 cx4_state
      = (cx4_state, [.beep]) :=
  (break_toggle_routing .busy 0 cx4_state
    { id := some "2", scid := 3, enabled := true, type := 'b' } (by decide)).2.2.1
    (by decide) (by decide) (by decide)

/-- The escaping the spec prescribes for the condition text: every `"`
and `\` preceded by a backslash (this is what `append_script_command`
applies to script commands, but `break_apply` does not). -/
def escape_cond_spec (s : String) : String :=
  s.data.foldl (fun acc c =>
    if c = '"' ∨ c = '\\' then acc ++ "\\" ++ c.toString else acc ++ c.toString) ""

/-- `break_apply` as the claim describes it: identical to
`break_apply_command` except that the quoted condition is escaped. -/
def break_apply_command_spec (thread : Bool) (thread_id : Option String) (r : BreakRow) :
    String :=
  let borts := c_strchr BP_BORTS r.type
  let c0 := "02" ++ toString r.scid ++ "-break-" ++ (if borts = true then "insert" else "watch")
  let c1 :=
    if borts = true then
      let a := if r.temporary = true then c0 ++ " -t" else c0
      let b := if c_strchr BP_HARDWS r.type = true then a ++ " -h" else a
      let c := if c_strchr BP_BREAKS r.type = true then
          match r.ignore with
          | some i => b ++ " -i " ++ i
          | none => b
        else b ++ " -a"
      let d := if r.enabled = false then c ++ " -d" else c
      let e := match r.cond with
        | some cd => d ++ " -c \"" ++ escape_cond_spec cd ++ "\""
        | none => d
      let f := if r.pending = true then e ++ " -f" else e
      if thread = true then
        match thread_id with
        | some t => f ++ " -p " ++ t
        | none => f
      else f
    else if c_strchr BP_WATOPTS r.type = true then c0 ++ " -" ++ r.type.toString
    else c0
  c1 ++ " " ++ r.location.getD "(null)"

/-- A breakpoint row whose condition contains a double quote. -/
def cx8_row : BreakRow :=
  { scid := 7, type := 'b', enabled := true, cond := some "x\"y",
    location := some "/a.c:1" }

/-- **C8 counterexample.** For a row whose condition contains a `"`,
`break_apply` emits the condition verbatim between the quotes — no
backslash precedes the inner quote — so the built command differs from
the escaped command the claim describes. -/
theorem break_apply_quoting_counterexample :
    break_apply_command false none cx8_row = "027-break-insert -c \"x\"y\" /a.c:1"
    ∧ break_apply_command_spec false none cx8_row = "027-break-insert -c \"x\\\"y\" /a.c:1"
    ∧ break_apply_command false none cx8_row ≠ break_apply_command_spec false none cx8_row := by
  refine ⟨by decide, by decide, by decide⟩

/-- The flag prefix of the command built by `break_apply` before the
condition: insert verb, temporary, hardware, ignore-count or `-a`, and
disabled flags. -/
def break_apply_head (r : BreakRow) : String :=
  let c0 := "02" ++ toString r.scid ++ "-break-" ++ "insert"
  let a := if r.temporary = true then c0 ++ " -t" else c0
  let b := if c_strchr BP_HARDWS r.type = true then a ++ " -h" else a
  let c := if c_strchr BP_BREAKS r.type = true then
      match r.ignore with
      | some i => b ++ " -i " ++ i
      | none => b
    else b ++ " -a"
  if r.enabled = false then c ++ " -d" else c

/-- The tail of the command from the condition onward: the condition
wrapped verbatim in double quotes, the pending and thread flags, and
the terminating location. -/
def break_apply_tail (thread : Bool) (tid : Option String) (pending : Bool) (c l : String) :
    String :=
  " -c \"" ++ c ++ "\"" ++ (if pending = true then " -f" else "")
    ++ (if thread = true then (match tid with | some t => " -p " ++ t | none => "") else "")
    ++ " " ++ l

/-- **C8 amended.** For every break/hw-break/trace/ftrace row with a
non-empty condition and a present location, the single command string
built by `break_apply` carries the condition wrapped in double quotes
verbatim — double quotes and backslashes inside the condition are *not*
escaped (that escaping exists only in `append_script_command` for
script text) — and the command is terminated by a space and the row's
location string. -/
theorem break_apply_cond_verbatim (thread : Bool) (tid : Option String) (r : BreakRow)
    (hb : c_strchr BP_BORTS r.type = true) (c l : String)
    (hc : r.cond = some c) (hl : r.location = some l) :
    break_apply_command thread tid r
      = break_apply_head r ++ break_apply_tail thread tid r.pending c l := by
  simp only [break_apply_command, break_apply_head, break_apply_tail, hb, hc, hl, if_true,
    Option.getD_some]
  apply String.ext
  by_cases hp : r.pending = true <;> cases thread <;> cases tid <;>
    simp [hp, String.data_append]

/-- **C8 witness.** The amended theorem applied to the concrete row. -/
theorem break_apply_cond_verbatim_witness :
    break_apply_command false none cx8_row
      = break_apply_head cx8_row ++ break_apply_tail false none cx8_row.pending "x\"y" "/a.c:1" :=
  break_apply_cond_verbatim false none cx8_row (by decide) "x\"y" "/a.c:1" rfl rfl

/-- Every row field except `file`, `display` and `location` — the
parts of a row the relocation round trip must restore exactly (the
location string itself may be canonically rewritten by
`break_relocate`, which the claim's "modulo marker churn" allows). -/
def rowCore (r : BreakRow) :=
  (r.id, r.line, r.scid, r.type, r.enabled, r.func, r.addr, r.times, r.ignore, r.cond,
   r.script, r.pending, r.runApply, r.temporary, r.discard, r.missing)

theorem break_delta_row_round (path : String) (start : Int) (k : Nat) (r : BreakRow) :
    ∃ r', (break_delta_row path start (k : Int) false r).bind
        (break_delta_row path start (-(k : Int)) false) = some r'
      ∧ rowCore r' = rowCore r := by
  by_cases h1 : 0 ≤ r.line - 1 ∧ start ≤ r.line - 1 ∧ utils_filenamecmp_eq r.file path = true
  · have hsh : (0 : Int) < (k : Int) ∨ start - (k : Int) ≤ r.line - 1 :=
      Or.inr (by omega)
    by_cases hloc : locationHasLine r.location = true
    · have hfirst : break_delta_row path start (k : Int) false r
          = some (break_relocate r path (r.line - 1 + (k : Int) + 1)) := by
        unfold break_delta_row
        rw [if_pos h1, if_neg (by simp), if_pos hsh, if_pos hloc]
      rw [hfirst, Option.some_bind]
      set r1 := break_relocate r path (r.line - 1 + (k : Int) + 1) with hr1
      have hr1line : r1.line = r.line + (k : Int) := by
        simp [hr1, break_relocate]; omega
      have hr1file : r1.file = some path := by simp [hr1, break_relocate]
      have h1' : 0 ≤ r1.line - 1 ∧ start ≤ r1.line - 1 ∧
          utils_filenamecmp_eq r1.file path = true := by
        refine ⟨by omega, by omega, ?_⟩
        rw [hr1file]
        simp [utils_filenamecmp_eq]
      have hsh' : (0 : Int) < -(k : Int) ∨ start - (-(k : Int)) ≤ r1.line - 1 :=
        Or.inr (by omega)
      by_cases hloc2 : locationHasLine r1.location = true
      · refine ⟨break_relocate r1 path (r1.line - 1 + (-(k : Int)) + 1), ?_, ?_⟩
        · unfold break_delta_row
          rw [if_pos h1', if_neg (by simp), if_pos hsh', if_pos hloc2]
        · simp [rowCore, break_relocate, hr1] <;> omega
      · refine ⟨{ r1 with line := r1.line - 1 + (-(k : Int)) + 1 }, ?_, ?_⟩
        · unfold break_delta_row
          rw [if_pos h1', if_neg (by simp), if_pos hsh',
            if_neg hloc2]
        · simp [rowCore, hr1, break_relocate] <;> omega
    · have hfirst : break_delta_row path start (k : Int) false r
          = some { r with line := r.line - 1 + (k : Int) + 1 } := by
        unfold break_delta_row
        rw [if_pos h1, if_neg (by simp), if_pos hsh, if_neg hloc]
      rw [hfirst, Option.some_bind]
      set r1 : BreakRow := { r with line := r.line - 1 + (k : Int) + 1 } with hr1
      have h1' : 0 ≤ r1.line - 1 ∧ start ≤ r1.line - 1 ∧
          utils_filenamecmp_eq r1.file path = true := by
        refine ⟨by simp [hr1]; omega, by simp [hr1]; omega, ?_⟩
        simpa [hr1] using h1.2.2
      have hsh' : (0 : Int) < -(k : Int) ∨ start - (-(k : Int)) ≤ r1.line - 1 :=
        Or.inr (by simp [hr1]; omega)
      have hloc2 : locationHasLine r1.location = false := by
        simpa [hr1] using (Bool.eq_false_iff.mpr hloc)
      refine ⟨{ r1 with line := r1.line - 1 + (-(k : Int)) + 1 }, ?_, ?_⟩
      · unfold break_delta_row
        rw [if_pos h1', if_neg (by simp), if_pos hsh', if_neg (by simp [hloc2])]
      · simp [rowCore, hr1] <;> omega
  · have hfirst : break_delta_row path start (k : Int) false r = some r := by
      unfold break_delta_row
      rw [if_neg h1]
    rw [hfirst, Option.some_bind]
    refine ⟨r, ?_, rfl⟩
    unfold break_delta_row
    rw [if_neg h1]

/-- **C5.** Relocation round-trip: for every breakpoint store, with the
session not actively executing, applying `breaks_delta` for an
insertion of `k` lines at a point and then `breaks_delta` for a
deletion of `k` lines at the same point neither removes nor adds any
row, and restores every row's line (and every other field outside the
canonically rewritten file/display/location strings) to its original
value — the net-zero delta is a no-op on the row set. -/
theorem breaks_delta_round_trip (st : BreakState) (path : String) (start : Int) (k : Nat) :
    List.Forall₂ (fun a b => rowCore a = rowCore b) st.rows
      (breaks_delta path start (-(k : Int)) false
        (breaks_delta path start (k : Int) false st)).rows := by
  have hcomp : (breaks_delta path start (-(k : Int)) false
        (breaks_delta path start (k : Int) false st)).rows
      = st.rows.filterMap (fun r => (break_delta_row path start (k : Int) false r).bind
          (break_delta_row path start (-(k : Int)) false)) := by
    simp [breaks_delta, List.filterMap_filterMap]
  rw [hcomp]
  induction st.rows with
  | nil => exact List.Forall₂.nil
  | cons r rest ih =>
    obtain ⟨r', hr', hcore⟩ := break_delta_row_round path start k r
    rw [List.filterMap_cons, hr']
    exact List.Forall₂.cons hcore.symm ih

/-- Claim-side notion of "recognized breakpoint kind": the kind integer
of a persisted record denotes one of the `BP_KNOWNS` letters
b, t, f, w, a, r. -/
def bp_recognized_claim (t : Int) : Bool :=
  [(98 : Int), 116, 102, 119, 97, 114].contains t

/-- The persisted record whose kind integer 256 is not a recognized
kind, yet loads: `strchr(BP_KNOWNS, 256)` converts 256 to the char 0
and finds the terminating NUL of `BP_KNOWNS`, and the `type &&` guard
only rejects the integer zero. -/
def cx7_record : BreakRecord := { type := 256, location := some "main", line := 0 }

/-- **C7 counterexample.** `break_load` creates a row for a record whose
kind code 256 is not a recognized breakpoint kind, refuting the claimed
"if and only if". -/
theorem break_load_filter_counterexample :
    bp_recognized_claim cx7_record.type = false
    ∧ (break_load cx7_record ⟨[], 0⟩).2 = true
    ∧ (break_load cx7_record ⟨[], 0⟩).1.rows.length = 1 := by decide

/-- **C7 amended.** `break_load` creates exactly one row if and only if
the record's kind integer is nonzero and its value truncated to a byte
is either a recognized kind letter (b, t, f, w, a, r) or the NUL char
(the `strchr` terminator quirk), the location string is present, and
the line is non-negative; otherwise the store is unchanged. -/
theorem break_load_filter (rec : BreakRecord) (st : BreakState) :
    ((break_load rec st).2 = true ↔
      (rec.type ≠ 0 ∧ (intToChar rec.type ∈ BP_KNOWNS.data ∨ intToChar rec.type = Char.ofNat 0)
        ∧ rec.location.isSome = true ∧ 0 ≤ rec.line))
    ∧ (break_load rec st).1.rows.length
        = st.rows.length + (if (break_load rec st).2 = true then 1 else 0) := by
  have hchr : c_strchr BP_KNOWNS (intToChar rec.type) = true ↔
      (intToChar rec.type ∈ BP_KNOWNS.data ∨ intToChar rec.type = Char.ofNat 0) := by
    simp [c_strchr]
  by_cases hcond : rec.type ≠ 0 ∧ c_strchr BP_KNOWNS (intToChar rec.type) = true ∧
      rec.location.isSome = true ∧ 0 ≤ rec.line
  · have hload : (break_load rec st).2 = true ∧
        (break_load rec st).1.rows.length = st.rows.length + 1 := by
      simp only [break_load, if_pos hcond]
      simp
    refine ⟨⟨fun _ => ⟨hcond.1, hchr.mp hcond.2.1, hcond.2.2⟩, fun _ => hload.1⟩, ?_⟩
    rw [hload.2, if_pos hload.1]
  · have hload : break_load rec st = (st, false) := by
      simp only [break_load, if_neg hcond]
    rw [hload]
    constructor
    · constructor
      · intro hf
        cases hf
      · intro hc
        exact absurd ⟨hc.1, hchr.mpr hc.2.1, hc.2.2⟩ hcond
    · simp

/-- The stage `break_node_parse` leaves behind: the next stage when the
row node carries a number field, the discard stage otherwise. -/
def chainStage (node : ParseNode) : BreakStage :=
  if (entryNumber node).isSome = true then .next else .discard

theorem break_node_parse_stage (po : ParseOut) (node : ParseNode) :
    (break_node_parse po node).bd.stage = chainStage node := by
  cases node with
  | value n v => rw [break_node_parse_eq_value]; rfl
  | array nm nodes =>
    cases hn : parse_find_value nodes "number" with
    | none =>
      rw [break_node_parse_eq_nonum po nm nodes hn]
      simp [chainStage, entryNumber, hn]
    | some id =>
      have hcs : chainStage (.array nm nodes) = .next := by
        simp [chainStage, entryNumber, hn]
      rw [hcs]
      by_cases hst : po.bd.stage = .apply
      · rw [break_node_parse_eq_apply po nm nodes id hn hst]
      · cases hj : model_find (fun r => r.id = some id) po.st.rows with
        | some j => rw [break_node_parse_eq_merge po nm nodes id j hn hst hj]
        | none =>
          cases hlead : id.data.contains '.' with
          | false => rw [break_node_parse_eq_create po nm nodes id hn hst hj hlead]
          | true => rw [break_node_parse_eq_create_dotted po nm nodes id hn hst hj hlead]

/-- The persisted scids of a row list: the scids of the rows not marked
discardable, in store order. -/
def persistedScidsL (l : List BreakRow) : List Int :=
  (l.filter (fun r => !r.discard)).map (fun r => r.scid)

/-- The persisted part of the row collection, as the claim reads it:
the sequence ids of the rows that survive a discard sweep. -/
def persistedScids (st : BreakState) : List Int := persistedScidsL st.rows

theorem persistedScidsL_cons (r : BreakRow) (l : List BreakRow) :
    persistedScidsL (r :: l)
      = (if r.discard = false then [r.scid] else []) ++ persistedScidsL l := by
  cases hr : r.discard <;> simp [persistedScidsL, List.filter_cons, hr]

theorem persistedScidsL_append (l₁ l₂ : List BreakRow) :
    persistedScidsL (l₁ ++ l₂) = persistedScidsL l₁ ++ persistedScidsL l₂ := by
  simp [persistedScidsL, List.filter_append]

theorem persistedScidsL_modifyIdx (l : List BreakRow) (j : Nat) (f : BreakRow → BreakRow)
    (hd : ∀ r, (f r).discard = r.discard) (hs : ∀ r, (f r).scid = r.scid) :
    persistedScidsL (modifyIdx l j f) = persistedScidsL l := by
  induction l generalizing j with
  | nil => rfl
  | cons a rest ih =>
    cases j with
    | zero => simp [modifyIdx, persistedScidsL_cons, hd, hs]
    | succ n => simp [modifyIdx, persistedScidsL_cons, ih]

theorem persistedScidsL_insertAfter (l : List BreakRow) (i : Nat) (x : BreakRow)
    (hx : x.discard = true) :
    persistedScidsL (insertAfterIdx l i x) = persistedScidsL l := by
  induction l generalizing i with
  | nil => simp [insertAfterIdx, persistedScidsL_cons, hx]
  | cons a rest ih =>
    cases i with
    | zero => simp [insertAfterIdx, persistedScidsL_cons, hx]
    | succ n => simp [insertAfterIdx, persistedScidsL_cons, ih]

theorem bnp_list_write_discard (nodes : List ParseNode) (id : String) (loc : ParseLocation)
    (r : BreakRow) : (bnp_list_write nodes id loc r).discard = r.discard := rfl

theorem bnp_list_write_scid (nodes : List ParseNode) (id : String) (loc : ParseLocation)
    (r : BreakRow) : (bnp_list_write nodes id loc r).scid = r.scid := rfl

theorem bnp_list_write_id (nodes : List ParseNode) (id : String) (loc : ParseLocation)
    (r : BreakRow) : (bnp_list_write nodes id loc r).id = some id := rfl

theorem bnp_apply_write_discard (nodes : List ParseNode) (id : String) (type : Char)
    (r : BreakRow) : (bnp_apply_write nodes id type r).discard = r.discard := by
  simp only [bnp_apply_write, bnp_always_write, bnp_cond_write]
  split
  · split <;> rfl
  · rfl

theorem bnp_apply_write_scid (nodes : List ParseNode) (id : String) (type : Char)
    (r : BreakRow) : (bnp_apply_write nodes id type r).scid = r.scid := by
  simp only [bnp_apply_write, bnp_always_write, bnp_cond_write]
  split
  · split <;> rfl
  · rfl

theorem bnp_apply_write_id (nodes : List ParseNode) (id : String) (type : Char)
    (r : BreakRow) : (bnp_apply_write nodes id type r).id = some id := rfl

theorem bnp_created_row_discard (nodes : List ParseNode) (stage : BreakStage) (type : Char)
    (leading : Bool) (scidGen : Int) (hst : stage ≠ .persist) :
    (bnp_created_row nodes stage type leading scidGen).discard = true := by
  have hd : decide (stage = BreakStage.persist) = false := by simp [hst]
  simp [bnp_created_row, bnp_new_row, hd]

theorem insertAfterIdx_mem {α : Type} (l : List α) (i : Nat) (x : α) :
    x ∈ insertAfterIdx l i x := by
  induction l generalizing i with
  | nil => simp [insertAfterIdx]
  | cons a rest ih =>
    cases i with
    | zero => simp [insertAfterIdx]
    | succ n => simp [insertAfterIdx, ih]

/-- Per-step preservation of the persisted scids: outside the persist
stage, one `break_node_parse` step never changes which scids are
persisted (merges and applies leave `discard` and `scid` alone, and any
row it creates is born discardable). -/
theorem break_node_parse_persisted (po : ParseOut) (node : ParseNode)
    (hst : po.bd.stage ≠ .persist) :
    persistedScids (break_node_parse po node).st = persistedScids po.st := by
  cases node with
  | value n v => rw [break_node_parse_eq_value]
  | array nm nodes =>
    cases hn : parse_find_value nodes "number" with
    | none => rw [break_node_parse_eq_nonum po nm nodes hn]
    | some id =>
      by_cases hap : po.bd.stage = .apply
      · rw [break_node_parse_eq_apply po nm nodes id hn hap]
        exact persistedScidsL_modifyIdx _ _ _
          (bnp_apply_write_discard nodes id _) (bnp_apply_write_scid nodes id _)
      · cases hj : model_find (fun r => r.id = some id) po.st.rows with
        | some j =>
          rw [break_node_parse_eq_merge po nm nodes id j hn hap hj]
          exact persistedScidsL_modifyIdx _ _ _
            (bnp_list_write_discard nodes id _) (bnp_list_write_scid nodes id _)
        | none =>
          cases hlead : id.data.contains '.' with
          | false =>
            rw [break_node_parse_eq_create po nm nodes id hn hap hj hlead]
            show persistedScidsL (po.st.rows ++ [_]) = persistedScidsL po.st.rows
            rw [persistedScidsL_append, persistedScidsL_cons]
            rw [bnp_list_write_discard, bnp_created_row_discard _ _ _ _ _ hst]
            simp [persistedScidsL]
          | true =>
            rw [break_node_parse_eq_create_dotted po nm nodes id hn hap hj hlead]
            show persistedScidsL (insertAfterIdx po.st.rows po.bd.iter _)
              = persistedScidsL po.st.rows
            apply persistedScidsL_insertAfter
            rw [bnp_list_write_discard, bnp_created_row_discard _ _ _ _ _ hst]

/-- Fold-level preservation: a whole breakpoint message parsed outside
the persist stage leaves the persisted scids unchanged — the stage a
step leaves behind is never the persist stage, so the invariant
propagates. -/
theorem break_nodes_foreach_persisted (nodes : List ParseNode) (po : ParseOut)
    (hst : po.bd.stage ≠ .persist) :
    persistedScids (break_nodes_foreach nodes po).st = persistedScids po.st := by
  induction nodes generalizing po with
  | nil => rfl
  | cons a rest ih =>
    have h1 : break_nodes_foreach (a :: rest) po
        = break_nodes_foreach rest (break_node_parse po a) := rfl
    have h2 : (break_node_parse po a).bd.stage ≠ .persist := by
      rw [break_node_parse_stage]
      unfold chainStage
      split <;> decide
    rw [h1, ih (break_node_parse po a) h2, break_node_parse_persisted po a hst]

/-- A store with one disconnected row of sequence id 1, awaiting a
break-insert reply. -/
def cx3_state : BreakState := ⟨[{ scid := 1 }], 1⟩

/-- A well-formed bkpt row node, backend number 9. -/
def cx3_entry : ParseNode :=
  .array "bkpt" [.value "number" "9", .value "type" "breakpoint"]

/-- **C3 counterexample.** A reply whose token starts with the
character `0` is NOT applied onto an already-existing row located by
scid with no new row created: on a store holding one scid-1 row, the
reply creates a second row (the goto stage falls through to the
new-breakpoint branch) and sends `-exec-continue`. -/
theorem break_token_dispatch_counterexample :
    (on_break_inserted (some "0") [cx3_entry] cx3_state).st.rows.length = 2
    ∧ (on_break_inserted (some "0") [cx3_entry] cx3_state).eff
        = [Eff.sendCmd "-exec-continue"] := by
  constructor <;> rfl

/-- **C3 amended.** Correlation dispatch of `on_break_inserted`, as the
code routes it: (1) a token whose first character is NOT `0` — rather
than `0`, as the claim says — applies the reply onto the existing row
located by its resend-safe sequence id: for a single well-formed row
node the store keeps its length and its scid generator and the located
row receives the backend number, so no new row is created; (2) a token
whose first character IS `0` parses the reply in the goto stage
instead — a leading well-formed row node whose number is not yet in the
store creates a NEW row and `-exec-continue` is sent; (3) an empty
token parses the reply in the discard stage, which indeed never touches
the persisted set (the scids of the non-discardable rows). -/
theorem break_token_dispatch (st : BreakState) (t : String) :
    (∀ (c : Char) (cs : List Char) (nm : String) (nodes : List ParseNode)
       (num : String) (j : Nat),
      t.data = c :: cs → c ≠ '0' →
      model_find (fun r => r.scid = c_atoi t) st.rows = some j →
      parse_find_value nodes "number" = some num →
      (on_break_inserted (some t) [.array nm nodes] st).st.rows.length = st.rows.length
      ∧ (on_break_inserted (some t) [.array nm nodes] st).st.scidGen = st.scidGen
      ∧ ((on_break_inserted (some t) [.array nm nodes] st).st.rows[j]?.map
          (fun r => r.id)) = some (some num))
    ∧ (∀ (c : Char) (cs : List Char) (nm : String) (nodes : List ParseNode)
         (num : String),
      t.data = c :: cs → c = '0' →
      parse_find_value nodes "number" = some num →
      num.data.contains '.' = false →
      model_find (fun r => r.id = some num) st.rows = none →
      (on_break_inserted (some t) [.array nm nodes] st).st.rows.length = st.rows.length + 1
      ∧ (on_break_inserted (some t) [.array nm nodes] st).eff
          = [Eff.sendCmd "-exec-continue"])
    ∧ (t.data = [] → ∀ nodes : List ParseNode,
      persistedScids (on_break_inserted (some t) nodes st).st = persistedScids st) := by
  refine ⟨?_, ?_, ?_⟩
  · intro c cs nm nodes num j ht hc hj hn
    have hred : on_break_inserted (some t) [.array nm nodes] st
        = break_node_parse
            { bd := { iter := j, type := Char.ofNat 0, stage := .apply },
              st := st, eff := [] } (.array nm nodes) := by
      unfold on_break_inserted
      simp only [obi_start, ht, if_neg hc, hj]
      rfl
    rw [hred, break_node_parse_eq_apply _ nm nodes num hn rfl]
    obtain ⟨hjlt, r, hr, -⟩ := model_find_some hj
    refine ⟨modifyIdx_length _ _ _, rfl, ?_⟩
    show (modifyIdx st.rows j _)[j]?.map (fun r => r.id) = some (some num)
    rw [getElem?_modifyIdx_self, hr]
    simp [bnp_apply_write_id]
  · intro c cs nm nodes num ht hc hn hlead hnone
    subst hc
    have hred : on_break_inserted (some t) [.array nm nodes] st
        = break_node_parse { bd := initBD .goto, st := st, eff := [] } (.array nm nodes) := by
      unfold on_break_inserted
      simp only [obi_start, ht, if_pos rfl]
      rfl
    rw [hred, break_node_parse_eq_create _ nm nodes num hn (by simp [initBD]) hnone hlead]
    constructor
    · simp
    · rfl
  · intro ht nodes
    have hred : on_break_inserted (some t) nodes st
        = break_nodes_foreach nodes { bd := initBD .discard, st := st, eff := [] } := by
      unfold on_break_inserted
      simp only [obi_start, ht]
    rw [hred, break_nodes_foreach_persisted _ _ (by simp [initBD])]

/-- A store awaiting a break-insert reply for sequence id 4. -/
def w3_state : BreakState := ⟨[{ scid := 4 }], 4⟩

/-- **C3 witness.** The apply branch of the amended theorem at a
concrete store: token `4`, one row node numbered 6. -/
theorem break_token_dispatch_witness :
    (on_break_inserted (some "4") [.array "bkpt" [.value "number" "6"]] w3_state).st.rows.length
        = w3_state.rows.length
    ∧ (on_break_inserted (some "4") [.array "bkpt" [.value "number" "6"]] w3_state).st.scidGen
        = w3_state.scidGen
    ∧ ((on_break_inserted (some "4") [.array "bkpt" [.value "number" "6"]] w3_state).st.rows[0]?.map
        (fun r => r.id)) = some (some "6") :=
  (break_token_dispatch w3_state "4").1 '4' [] "bkpt" [.value "number" "6"] "6" 0
    (by decide) (by decide) (by decide) (by decide)

/-- The scalar node of the shape-error message: a value where a row
array was expected. -/
def cx9_bad : ParseNode := .value "x" "y"

/-- The field nodes of a well-formed, persist-eligible bkpt row:
number 7, a plain breakpoint, located only by its original location. -/
def cx9_nodes : List ParseNode :=
  [.value "number" "7", .value "type" "breakpoint",
   .value "original-location" "/a.c:3"]

/-- A well-formed bkpt row node built from those fields. -/
def cx9_entry : ParseNode := .array "bkpt" cx9_nodes

/-- **C9 counterexample.** In a token-less (persist stage) breakpoint
message, a scalar row node does NOT leave the rest of the batch parsed
and applied exactly as it would have been had the offending node been
absent: the error demotes the stage to discard, so the well-formed row
following the scalar is created discardable, whereas without the scalar
it would have been created persisted.  The two resulting stores
differ. -/
theorem break_shape_error_containment_counterexample :
    (on_break_inserted none [cx9_bad, cx9_entry] ⟨[], 0⟩).st
      ≠ (on_break_inserted none [cx9_entry] ⟨[], 0⟩).st := by decide

/-- **C9 amended.** What a scalar row node in a breakpoint batch really
does: the error is reported and the store is untouched by that node, the
fold does continue over the remaining nodes, and a well-formed numbered
row node after the scalar is still written to the store (its backend
number lands on some row).  But the scalar demotes the parse stage to
discard rather than leaving the batch as if the node were absent, so
rows created later in the same batch lose their persist eligibility. -/
theorem break_shape_error_containment (po : ParseOut) (n v nm : String)
    (nodes rest : List ParseNode) (id : String)
    (hn : parse_find_value nodes "number" = some id) :
    (break_node_parse po (.value n v)).st = po.st
    ∧ (break_node_parse po (.value n v)).eff
        = po.eff ++ [.dcError "breaks: contains value"]
    ∧ (break_node_parse po (.value n v)).bd.stage = .discard
    ∧ break_nodes_foreach (ParseNode.value n v :: rest) po
        = break_nodes_foreach rest (break_node_parse po (.value n v))
    ∧ (∃ r ∈ (break_nodes_foreach [ParseNode.value n v, .array nm nodes] po).st.rows,
        r.id = some id) := by
  refine ⟨by rw [break_node_parse_eq_value], by rw [break_node_parse_eq_value],
    by rw [break_node_parse_eq_value], rfl, ?_⟩
  have h2 : break_nodes_foreach [ParseNode.value n v, .array nm nodes] po
      = break_node_parse (break_node_parse po (.value n v)) (.array nm nodes) := rfl
  rw [h2, break_node_parse_eq_value]
  set po1 : ParseOut :=
    { po with bd := { po.bd with stage := .discard },
              eff := po.eff ++ [.dcError "breaks: contains value"] } with hpo1
  have hst : po1.bd.stage ≠ .apply := by rw [hpo1]; simp
  cases hj : model_find (fun r => r.id = some id) po1.st.rows with
  | some j =>
    rw [break_node_parse_eq_merge po1 nm nodes id j hn hst hj]
    obtain ⟨hjlt, r, hr, -⟩ := model_find_some hj
    refine ⟨bnp_list_write nodes id (parse_location nodes) r, ?_, rfl⟩
    exact List.mem_iff_getElem?.mpr ⟨j, by rw [getElem?_modifyIdx_self, hr]; rfl⟩
  | none =>
    cases hlead : id.data.contains '.' with
    | false =>
      rw [break_node_parse_eq_create po1 nm nodes id hn hst hj hlead]
      exact ⟨_, List.mem_append_right _ (List.mem_singleton.mpr rfl),
        bnp_list_write_id _ _ _ _⟩
    | true =>
      rw [break_node_parse_eq_create_dotted po1 nm nodes id hn hst hj hlead]
      exact ⟨_, insertAfterIdx_mem _ _ _, bnp_list_write_id _ _ _ _⟩

/-- The token-less starting state of the witness batch. -/
def po9 : ParseOut := { bd := initBD .persist, st := ⟨[], 0⟩, eff := [] }

/-- **C9 witness.** The amended theorem at the concrete batch: scalar
node first, then the well-formed bkpt row numbered 7. -/
theorem break_shape_error_containment_witness :
    (break_node_parse po9 (.value "x" "y")).st = po9.st
    ∧ (break_node_parse po9 (.value "x" "y")).eff
        = po9.eff ++ [.dcError "breaks: contains value"]
    ∧ (break_node_parse po9 (.value "x" "y")).bd.stage = .discard
    ∧ break_nodes_foreach (ParseNode.value "x" "y" :: [cx9_entry]) po9
        = break_nodes_foreach [cx9_entry] (break_node_parse po9 (.value "x" "y"))
    ∧ (∃ r ∈ (break_nodes_foreach [ParseNode.value "x" "y", .array "bkpt" cx9_nodes] po9).st.rows,
        r.id = some "7") :=
  break_shape_error_containment po9 "x" "y" "bkpt" cx9_nodes [cx9_entry] "7" (by decide)

/-- Two rows do not clash on backend ids: one of them has no id, or the
ids differ. -/
def id_distinct (r s : BreakRow) : Prop := r.id = none ∨ s.id = none ∨ r.id ≠ s.id

/-- The id → row mapping of a store is injective over non-empty ids: no
two distinct rows carry the same non-NULL backend id. -/
def idInjective (st : BreakState) : Prop := st.rows.Pairwise id_distinct

instance id_distinct_dec : DecidableRel id_distinct := fun r s => by
  unfold id_distinct; infer_instance

instance idInjective_dec (st : BreakState) : Decidable (idInjective st) := by
  unfold idInjective; infer_instance

theorem mem_modifyIdx {α : Type} {l : List α} {j : Nat} {f : α → α} {b : α}
    (hb : b ∈ modifyIdx l j f) : b ∈ l ∨ ∃ r, l[j]? = some r ∧ b = f r := by
  induction l generalizing j with
  | nil => simp [modifyIdx] at hb
  | cons a rest ih =>
    cases j with
    | zero =>
      rcases List.mem_cons.mp hb with h | h
      · exact Or.inr ⟨a, by simp, h⟩
      · exact Or.inl (List.mem_cons_of_mem a h)
    | succ n =>
      rcases List.mem_cons.mp hb with h | h
      · exact Or.inl (h ▸ List.mem_cons_self a rest)
      · rcases ih h with h2 | ⟨r, hr, hbr⟩
        · exact Or.inl (List.mem_cons_of_mem a h2)
        · exact Or.inr ⟨r, by simpa using hr, hbr⟩

theorem mem_insertAfterIdx {α : Type} {l : List α} {i : Nat} {x b : α}
    (hb : b ∈ insertAfterIdx l i x) : b ∈ l ∨ b = x := by
  induction l generalizing i with
  | nil => simp [insertAfterIdx] at hb; exact Or.inr hb
  | cons a rest ih =>
    cases i with
    | zero =>
      rcases List.mem_cons.mp hb with h | h
      · exact Or.inl (h ▸ List.mem_cons_self a rest)
      · rcases List.mem_cons.mp h with h2 | h2
        · exact Or.inr h2
        · exact Or.inl (List.mem_cons_of_mem a h2)
    | succ n =>
      rcases List.mem_cons.mp hb with h | h
      · exact Or.inl (h ▸ List.mem_cons_self a rest)
      · rcases ih h with h2 | h2
        · exact Or.inl (List.mem_cons_of_mem a h2)
        · exact Or.inr h2

theorem pairwise_modifyIdx_keep {l : List BreakRow} {j : Nat} {f : BreakRow → BreakRow}
    (hkeep : ∀ r, l[j]? = some r → (f r).id = r.id)
    (h : l.Pairwise id_distinct) : (modifyIdx l j f).Pairwise id_distinct := by
  induction l generalizing j with
  | nil => exact h
  | cons a rest ih =>
    rw [List.pairwise_cons] at h
    obtain ⟨h1, h2⟩ := h
    cases j with
    | zero =>
      have hk : (f a).id = a.id := hkeep a (by simp)
      rw [show modifyIdx (a :: rest) 0 f = f a :: rest from rfl, List.pairwise_cons]
      exact ⟨fun b hb => by simpa [id_distinct, hk] using h1 b hb, h2⟩
    | succ n =>
      rw [show modifyIdx (a :: rest) (n + 1) f = a :: modifyIdx rest n f from rfl,
        List.pairwise_cons]
      refine ⟨fun b hb => ?_, ih (fun r hr => hkeep r (by simpa using hr)) h2⟩
      rcases mem_modifyIdx hb with hm | ⟨r, hr, hbr⟩
      · exact h1 b hm
      · have hk : (f r).id = r.id := hkeep r (by simpa using hr)
        have hmem : r ∈ rest := List.mem_iff_getElem?.mpr ⟨n, hr⟩
        subst hbr
        simpa [id_distinct, hk] using h1 r hmem

theorem pairwise_modifyIdx_fresh {l : List BreakRow} {j : Nat} {f : BreakRow → BreakRow}
    {x : String} (hf : ∀ r, (f r).id = some x) (hx : ∀ r ∈ l, r.id ≠ some x)
    (h : l.Pairwise id_distinct) : (modifyIdx l j f).Pairwise id_distinct := by
  induction l generalizing j with
  | nil => exact h
  | cons a rest ih =>
    rw [List.pairwise_cons] at h
    obtain ⟨h1, h2⟩ := h
    cases j with
    | zero =>
      rw [show modifyIdx (a :: rest) 0 f = f a :: rest from rfl, List.pairwise_cons]
      refine ⟨fun b hb => ?_, h2⟩
      refine Or.inr (Or.inr ?_)
      rw [hf a]
      exact fun he => hx b (List.mem_cons_of_mem a hb) he.symm
    | succ n =>
      rw [show modifyIdx (a :: rest) (n + 1) f = a :: modifyIdx rest n f from rfl,
        List.pairwise_cons]
      refine ⟨fun b hb => ?_, ih (fun r hr => hx r (List.mem_cons_of_mem a hr)) h2⟩
      rcases mem_modifyIdx hb with hm | ⟨r, hr, hbr⟩
      · exact h1 b hm
      · subst hbr
        refine Or.inr (Or.inr ?_)
        rw [hf r]
        exact hx a (List.mem_cons_self a rest)

theorem pairwise_append_one {l : List BreakRow} {w : BreakRow}
    (h : l.Pairwise id_distinct) (hw : ∀ r ∈ l, id_distinct r w) :
    (l ++ [w]).Pairwise id_distinct := by
  rw [List.pairwise_append]
  exact ⟨h, List.pairwise_singleton _ _,
    fun a ha b hb => (List.mem_singleton.mp hb) ▸ hw a ha⟩

theorem pairwise_insertAfterIdx {l : List BreakRow} {i : Nat} {x : BreakRow}
    (h : l.Pairwise id_distinct) (hw : ∀ r ∈ l, id_distinct r x ∧ id_distinct x r) :
    (insertAfterIdx l i x).Pairwise id_distinct := by
  induction l generalizing i with
  | nil => exact List.pairwise_singleton _ _
  | cons a rest ih =>
    rw [List.pairwise_cons] at h
    obtain ⟨h1, h2⟩ := h
    cases i with
    | zero =>
      rw [show insertAfterIdx (a :: rest) 0 x = a :: x :: rest from rfl,
        List.pairwise_cons, List.pairwise_cons]
      refine ⟨fun b hb => ?_, fun b hb => (hw b (List.mem_cons_of_mem a hb)).2, h2⟩
      rcases List.mem_cons.mp hb with hbx | hbr
      · exact hbx ▸ (hw a (List.mem_cons_self a rest)).1
      · exact h1 b hbr
    | succ n =>
      rw [show insertAfterIdx (a :: rest) (n + 1) x = a :: insertAfterIdx rest n x from rfl,
        List.pairwise_cons]
      refine ⟨fun b hb => ?_, ih h2 (fun r hr => hw r (List.mem_cons_of_mem a hr))⟩
      rcases mem_insertAfterIdx hb with hm | hbx
      · exact h1 b hm
      · exact hbx ▸ (hw a (List.mem_cons_self a rest)).1

theorem pairwise_filterMap_id {l : List BreakRow} {f : BreakRow → Option BreakRow}
    (hf : ∀ r y, f r = some y → y.id = r.id ∨ y.id = none)
    (h : l.Pairwise id_distinct) : (l.filterMap f).Pairwise id_distinct := by
  rw [List.pairwise_filterMap]
  refine h.imp ?_
  intro a b hab x hx y hy
  rcases hf a x hx with hxa | hxn
  · rcases hf b y hy with hyb | hyn
    · simpa [id_distinct, hxa, hyb] using hab
    · exact Or.inr (Or.inl hyn)
  · exact Or.inl hxn

theorem pairwise_map_id {l : List BreakRow} {g : BreakRow → BreakRow}
    (hg : ∀ r, (g r).id = r.id)
    (h : l.Pairwise id_distinct) : (l.map g).Pairwise id_distinct := by
  rw [List.pairwise_map]
  exact h.imp (fun hab => by simpa [id_distinct, hg] using hab)

/-- Per-step preservation of id-injectivity outside the apply stage:
`break_node_parse` merges into the first (and by injectivity, only) row
already carrying the incoming number, and creates a row only when no
row carries it. -/
theorem break_node_parse_idInj (po : ParseOut) (node : ParseNode)
    (hap : po.bd.stage ≠ .apply) (h : idInjective po.st) :
    idInjective (break_node_parse po node).st := by
  cases node with
  | value n v => rw [break_node_parse_eq_value]; exact h
  | array nm nodes =>
    cases hn : parse_find_value nodes "number" with
    | none => rw [break_node_parse_eq_nonum po nm nodes hn]; exact h
    | some id =>
      cases hj : model_find (fun r => r.id = some id) po.st.rows with
      | some j =>
        rw [break_node_parse_eq_merge po nm nodes id j hn hap hj]
        obtain ⟨hjlt, r0, hr0, hp0⟩ := model_find_some hj
        refine pairwise_modifyIdx_keep (fun r hr => ?_) h
        have : r = r0 := by rw [hr0] at hr; exact (Option.some_inj.mp hr).symm
        subst this
        have hid : r.id = some id := by simpa using hp0
        rw [bnp_list_write_id, hid]
      | none =>
        have hfresh : ∀ r ∈ po.st.rows, r.id ≠ some id := by
          intro r hr
          have := model_find_eq_none.mp hj r hr
          simpa using this
        cases hlead : id.data.contains '.' with
        | false =>
          rw [break_node_parse_eq_create po nm nodes id hn hap hj hlead]
          refine pairwise_append_one h (fun r hr => ?_)
          exact Or.inr (Or.inr (by rw [bnp_list_write_id]; exact hfresh r hr))
        | true =>
          rw [break_node_parse_eq_create_dotted po nm nodes id hn hap hj hlead]
          refine pairwise_insertAfterIdx h (fun r hr => ?_)
          constructor
          · exact Or.inr (Or.inr (by rw [bnp_list_write_id]; exact hfresh r hr))
          · refine Or.inr (Or.inr ?_)
            rw [bnp_list_write_id]
            exact fun he => hfresh r hr he.symm

/-- Fold-level preservation: a whole breakpoint message parsed outside
the apply stage preserves id-injectivity. -/
theorem break_nodes_foreach_idInj (nodes : List ParseNode) (po : ParseOut)
    (hap : po.bd.stage ≠ .apply) (h : idInjective po.st) :
    idInjective (break_nodes_foreach nodes po).st := by
  induction nodes generalizing po with
  | nil => exact h
  | cons a rest ih =>
    have h1 : break_nodes_foreach (a :: rest) po
        = break_nodes_foreach rest (break_node_parse po a) := rfl
    have h2 : (break_node_parse po a).bd.stage ≠ .apply := by
      rw [break_node_parse_stage]
      unfold chainStage
      split <;> decide
    rw [h1]
    exact ih (break_node_parse po a) h2 (break_node_parse_idInj po a hap h)

/-- The row node the backend sends for its breakpoint number 1. -/
def cx1_entry : ParseNode :=
  .array "bkpt" [.value "number" "1", .value "type" "breakpoint"]

/-- A store reached through the claim's own operations: toggle-at-line
while inactive (a local row, sequence id 1, no backend id), then the
breakpoint-created notification for backend number 1, then the
break-insert reply correlated to sequence id 1 announcing the same
backend number. -/
def cx1_state : BreakState :=
  (on_break_inserted (some "1") [cx1_entry]
    (on_break_created [cx1_entry]
      (on_break_toggle .inactive "/a.c" 3 ⟨[], 0⟩).1).st).st

/-- **C1 counterexample.** The id → row mapping is NOT kept injective by
the store's own operations: after the trace above, two rows carry
backend id 1 — the apply stage of `break_node_parse` writes the incoming
number onto the row located by sequence id without first looking the
number up among the other rows. -/
theorem break_id_unique_counterexample :
    ¬ idInjective cx1_state
    ∧ cx1_state.rows.map (fun r => r.id) = [some "1", some "1"] := by
  constructor
  · decide
  · decide

/-- **C1 amended.** Id-injectivity is preserved by the token-less
notification parse, the breakpoint-created notification, the listing
refresh, toggle-at-line, and the persisted load; the correlated
break-insert reply — the apply stage, which the claim's justification
overlooks — preserves it only under the extra hypothesis that the
incoming backend number is fresh for the store. -/
theorem break_id_unique (st : BreakState) (hinj : idInjective st) :
    (∀ nodes : List ParseNode, idInjective (on_break_inserted none nodes st).st)
    ∧ (∀ nodes : List ParseNode, idInjective (on_break_created nodes st).st)
    ∧ (∀ (token : Option String) (body : Option (List ParseNode)),
        idInjective (on_break_list token body st).st)
    ∧ (∀ (ds : DebugState) (real_path : String) (doc_line : Int),
        idInjective (on_break_toggle ds real_path doc_line st).1)
    ∧ (∀ rec : BreakRecord, idInjective (break_load rec st).1)
    ∧ (∀ (t nm : String) (nodes : List ParseNode) (num : String),
        parse_find_value nodes "number" = some num →
        (∀ r ∈ st.rows, r.id ≠ some num) →
        idInjective (on_break_inserted (some t) [.array nm nodes] st).st) := by
  refine ⟨?_, ?_, ?_, ?_, ?_, ?_⟩
  · intro nodes
    exact break_nodes_foreach_idInj nodes _ (by simp [obi_start, initBD]) hinj
  · intro nodes
    exact break_nodes_foreach_idInj nodes _ (by simp [initBD]) hinj
  · intro token body
    cases body with
    | none => exact hinj
    | some nodes =>
      cases htok : token with
      | none =>
        simp only [on_break_list, htok, Option.isSome_none, Bool.false_eq_true,
          if_false, ite_false]
        exact break_nodes_foreach_idInj nodes _ (by simp [initBD]) hinj
      | some t =>
        simp only [on_break_list, htok, Option.isSome_some, if_true, ite_true]
        show idInjective (breaks_missing _)
        refine pairwise_filterMap_id (fun r y hy => ?_) ?_
        · by_cases hc : r.id.isSome = true ∧ r.missing = true
          · rw [if_pos hc] at hy
            by_cases hd : r.discard = true
            · rw [if_pos hd] at hy; exact absurd hy (by simp)
            · rw [if_neg hd] at hy
              exact Or.inr (by rw [← Option.some_inj.mp hy]; rfl)
          · rw [if_neg hc] at hy
            exact Or.inl (by rw [← Option.some_inj.mp hy])
        · exact break_nodes_foreach_idInj nodes _ (by simp [initBD])
            (pairwise_map_id (fun r => rfl) hinj)
  · intro ds real_path doc_line
    simp only [on_break_toggle]
    split
    · exact hinj
    · split
      · show idInjective (break_delete ds _ st).1
        unfold break_delete
        split
        · exact hinj
        · split
          · exact List.Pairwise.sublist (List.eraseIdx_sublist _ _) hinj
          · exact hinj
      · split
        · exact hinj
        · refine pairwise_append_one hinj (fun r hr => ?_)
          exact Or.inr (Or.inl rfl)
  · intro rec
    by_cases hc : rec.type ≠ 0 ∧ c_strchr BP_KNOWNS (intToChar rec.type) = true ∧
        rec.location.isSome = true ∧ 0 ≤ rec.line
    · simp only [break_load, if_pos hc]
      refine pairwise_append_one hinj (fun r hr => ?_)
      exact Or.inr (Or.inl rfl)
    · simp only [break_load, if_neg hc]
      exact hinj
  · intro t nm nodes num hn hfresh
    unfold on_break_inserted
    cases htd : t.data with
    | nil =>
      have hred : obi_start (some t) st
          = { bd := initBD .discard, st := st, eff := [] } := by
        simp only [obi_start, htd]
      rw [hred]
      exact break_nodes_foreach_idInj _ _ (by simp [initBD]) hinj
    | cons c cs =>
      by_cases hc : c = '0'
      · subst hc
        have hred : obi_start (some t) st
            = { bd := initBD .goto, st := st, eff := [] } := by
          simp [obi_start, htd]
        rw [hred]
        exact break_nodes_foreach_idInj _ _ (by simp [initBD]) hinj
      · cases hj : model_find (fun r => r.scid = c_atoi t) st.rows with
        | none =>
          have hred : obi_start (some t) st
              = { bd := initBD .persist, st := st,
                  eff := [.dcError (t ++ ": b_scid not found")] } := by
            simp only [obi_start, htd, if_neg hc, hj]
          rw [hred]
          exact break_nodes_foreach_idInj _ _ (by simp [initBD]) hinj
        | some j =>
          have hred : obi_start (some t) st
              = { bd := { iter := j, type := Char.ofNat 0, stage := .apply },
                  st := st, eff := [] } := by
            simp only [obi_start, htd, if_neg hc, hj]
          rw [hred]
          rw [show break_nodes_foreach [ParseNode.array nm nodes]
              { bd := { iter := j, type := Char.ofNat 0, stage := BreakStage.apply },
                st := st, eff := [] }
            = break_node_parse
              { bd := { iter := j, type := Char.ofNat 0, stage := BreakStage.apply },
                st := st, eff := [] } (.array nm nodes) from rfl]
          rw [break_node_parse_eq_apply _ nm nodes num hn rfl]
          exact pairwise_modifyIdx_fresh (bnp_apply_write_id nodes num _) hfresh hinj

/-- A store holding one connected row, backend id 5. -/
def w1_state : BreakState := ⟨[{ id := some "5", scid := 2 }], 2⟩

/-- **C1 witness.** The amended theorem's notification-parse branch at a
concrete store and row node. -/
theorem break_id_unique_witness :
    idInjective (on_break_inserted none [cx1_entry] w1_state).st :=
  (break_id_unique w1_state (by decide)).1 [cx1_entry]

/-- The backend numbers announced by the row nodes of a listing body. -/
def listedIds (nodes : List ParseNode) : List String := nodes.filterMap entryNumber

/-- A row node whose original-location processing is inert: the
location its creation would store equals the plainly parsed location.
Scalar nodes hold it vacuously. -/
def origInert : ParseNode → Prop
  | .value _ _ => True
  | .array _ ns => bnp_created_loc ns = parse_location ns

instance origInert_dec (nd : ParseNode) : Decidable (origInert nd) := by
  cases nd with
  | value n v => exact isTrue trivial
  | array nm ns => exact inferInstanceAs (Decidable (bnp_created_loc ns = parse_location ns))

/-- A row was refreshed by the given prefix of a listing: its id
matches a number announced by one of the prefix's row nodes. -/
def touched (pre : List ParseNode) (r : BreakRow) : Bool :=
  pre.any (fun nd => match entryNumber nd with
    | some x => decide (r.id = some x)
    | none => false)

/-- A pass-two intermediate row: refreshed rows keep their value, the
rest are still marked missing. -/
def mask (pre : List ParseNode) (r : BreakRow) : BreakRow :=
  if touched pre r = true then r else break_iter_missing r

theorem mask_id (pre : List ParseNode) (r : BreakRow) : (mask pre r).id = r.id := by
  unfold mask
  split <;> rfl

theorem break_iter_missing_eq_self {r : BreakRow} (h : r.missing = true) :
    break_iter_missing r = r := by
  cases r
  simp_all [break_iter_missing]

theorem bnp_list_write_idem (ns : List ParseNode) (x : String) (loc : ParseLocation)
    (r : BreakRow) :
    bnp_list_write ns x loc (bnp_list_write ns x loc r) = bnp_list_write ns x loc r := rfl

theorem bnp_list_write_missing_irrel (ns : List ParseNode) (x : String)
    (loc : ParseLocation) (r : BreakRow) :
    bnp_list_write ns x loc (break_iter_missing r) = bnp_list_write ns x loc r := rfl

theorem bnp_list_write_missing (ns : List ParseNode) (x : String) (loc : ParseLocation)
    (r : BreakRow) : (bnp_list_write ns x loc r).missing = false := rfl

theorem mem_listedIds {pre : List ParseNode} {nm : String} {ns : List ParseNode} {x : String}
    (hmem : ParseNode.array nm ns ∈ pre) (hx : parse_find_value ns "number" = some x) :
    x ∈ listedIds pre := by
  unfold listedIds
  exact List.mem_filterMap.mpr ⟨_, hmem, by simp [entryNumber, hx]⟩

theorem filter_modifyIdx_untouched {p : BreakRow → Bool} (l : List BreakRow) (j : Nat)
    (f : BreakRow → BreakRow)
    (h : ∀ r, l[j]? = some r → p r = false ∧ p (f r) = false) :
    List.filter p (modifyIdx l j f) = List.filter p l := by
  induction l generalizing j with
  | nil => rfl
  | cons a rest ih =>
    cases j with
    | zero =>
      obtain ⟨h1, h2⟩ := h a (by simp)
      rw [show modifyIdx (a :: rest) 0 f = f a :: rest from rfl]
      simp [List.filter_cons, h1, h2]
    | succ n =>
      rw [show modifyIdx (a :: rest) (n + 1) f = a :: modifyIdx rest n f from rfl,
        List.filter_cons, List.filter_cons, ih n (fun r hr => h r (by simpa using hr))]

theorem filter_modifyIdx_single {p : BreakRow → Bool} (l : List BreakRow) (j : Nat)
    (f : BreakRow → BreakRow) (r0 : BreakRow)
    (hnone : ∀ r ∈ l, p r = false) (hj : l[j]? = some r0) (hf : p (f r0) = true) :
    List.filter p (modifyIdx l j f) = [f r0] := by
  induction l generalizing j with
  | nil => simp at hj
  | cons a rest ih =>
    cases j with
    | zero =>
      have ha : a = r0 := by simpa using hj
      subst ha
      rw [show modifyIdx (a :: rest) 0 f = f a :: rest from rfl, List.filter_cons,
        if_pos hf, List.filter_eq_nil_iff.mpr
          (fun r hr => by simp [hnone r (List.mem_cons_of_mem a hr)])]
    | succ n =>
      have ha : p a = false := hnone a (by simp)
      rw [show modifyIdx (a :: rest) (n + 1) f = a :: modifyIdx rest n f from rfl,
        List.filter_cons, if_neg (by simp [ha])]
      exact ih n (fun r hr => hnone r (List.mem_cons_of_mem a hr)) (by simpa using hj)

theorem filter_insertAfterIdx_false {p : BreakRow → Bool} (l : List BreakRow) (i : Nat)
    (x : BreakRow) (hx : p x = false) :
    List.filter p (insertAfterIdx l i x) = List.filter p l := by
  induction l generalizing i with
  | nil => simp [insertAfterIdx, List.filter_cons, hx]
  | cons a rest ih =>
    cases i with
    | zero =>
      rw [show insertAfterIdx (a :: rest) 0 x = a :: x :: rest from rfl]
      simp [List.filter_cons, hx]
    | succ n =>
      rw [show insertAfterIdx (a :: rest) (n + 1) x = a :: insertAfterIdx rest n x from rfl,
        List.filter_cons, List.filter_cons, ih n]

theorem filter_insertAfterIdx_true {p : BreakRow → Bool} (l : List BreakRow) (i : Nat)
    (x : BreakRow) (hl : ∀ r ∈ l, p r = false) (hx : p x = true) :
    List.filter p (insertAfterIdx l i x) = [x] := by
  induction l generalizing i with
  | nil => simp [insertAfterIdx, List.filter_cons, hx]
  | cons a rest ih =>
    have ha : p a = false := hl a (by simp)
    cases i with
    | zero =>
      rw [show insertAfterIdx (a :: rest) 0 x = a :: x :: rest from rfl,
        List.filter_cons, if_neg (by simp [ha]), List.filter_cons, if_pos hx,
        List.filter_eq_nil_iff.mpr
          (fun r hr => by simp [hl r (List.mem_cons_of_mem a hr)])]
    | succ n =>
      rw [show insertAfterIdx (a :: rest) (n + 1) x = a :: insertAfterIdx rest n x from rfl,
        List.filter_cons, if_neg (by simp [ha])]
      exact ih n (fun r hr => hl r (List.mem_cons_of_mem a hr))

theorem filter_singleton_find {p : BreakRow → Bool} {l : List BreakRow} {v : BreakRow}
    (h : List.filter p l = [v]) :
    ∃ j, model_find p l = some j ∧ l[j]? = some v ∧
      ∀ i r2, l[i]? = some r2 → p r2 = true → i = j := by
  induction l with
  | nil => simp at h
  | cons a rest ih =>
    rw [List.filter_cons] at h
    by_cases hp : p a = true
    · rw [if_pos hp] at h
      injection h with h1 h2
      refine ⟨0, by simp [model_find, hp], by simp [h1], ?_⟩
      intro i r2 hi hp2
      cases i with
      | zero => rfl
      | succ n =>
        have hmem : r2 ∈ rest := List.mem_iff_getElem?.mpr ⟨n, by simpa using hi⟩
        exact absurd hp2 (by simpa using List.filter_eq_nil_iff.mp h2 r2 hmem)
    · have hpa : p a = false := Bool.eq_false_iff.mpr hp
      rw [if_neg hp] at h
      obtain ⟨j, h1, h2, h3⟩ := ih h
      refine ⟨j + 1, ?_, by simpa using h2, ?_⟩
      · rw [show model_find p (a :: rest) = (model_find p rest).map (· + 1) by
          simp [model_find, hpa], h1]
        rfl
      · intro i r2 hi hp2
        cases i with
        | zero =>
          have : a = r2 := by simpa using hi
          subst this
          exact absurd hp2 (by simp [hpa])
        | succ n =>
          have := h3 n r2 (by simpa using hi) hp2
          omega

theorem model_find_map {p : BreakRow → Bool} {g : BreakRow → BreakRow}
    (hg : ∀ r, p (g r) = p r) (l : List BreakRow) :
    model_find p (l.map g) = model_find p l := by
  induction l with
  | nil => rfl
  | cons a rest ih =>
    by_cases hp : p a = true
    · simp [model_find, hg, hp]
    · have hpa : p a = false := Bool.eq_false_iff.mpr hp
      simp [model_find, hg, hpa, ih]

theorem filterMap_id_of {f : BreakRow → Option BreakRow} {l : List BreakRow}
    (h : ∀ r ∈ l, f r = some r) : l.filterMap f = l := by
  induction l with
  | nil => rfl
  | cons a rest ih =>
    simp only [List.filterMap_cons, h a (by simp)]
    rw [ih (fun r hr => h r (List.mem_cons_of_mem a hr))]

/-- The pass-one invariant of the refresh fold, after the given prefix
of the listing has been processed: id-less rows are still marked
missing, unmarked rows were written by a processed row node, and every
processed numbered row node has exactly one unmarked row carrying its
number — already equal to what rewriting it would produce again. -/
def p1inv (pre : List ParseNode) (rows : List BreakRow) : Prop :=
  (∀ r ∈ rows, r.id = none → r.missing = true)
  ∧ (∀ r ∈ rows, r.missing = false →
      ∃ nm ns x, ParseNode.array nm ns ∈ pre ∧ parse_find_value ns "number" = some x
        ∧ r.id = some x)
  ∧ (∀ nm ns x, ParseNode.array nm ns ∈ pre → parse_find_value ns "number" = some x →
      ∃ V, rows.filter (fun r => r.id = some x && !r.missing) = [V]
        ∧ bnp_list_write ns x (parse_location ns) V = V)

theorem p1inv_extend_nonentry {pre : List ParseNode} {node : ParseNode}
    {rows : List BreakRow} (hne : entryNumber node = none) (h : p1inv pre rows) :
    p1inv (pre ++ [node]) rows := by
  obtain ⟨hA1, hA2, hA3⟩ := h
  refine ⟨hA1, ?_, ?_⟩
  · intro r hr hm
    obtain ⟨nm, ns, x, hmem, hnum, hid⟩ := hA2 r hr hm
    exact ⟨nm, ns, x, List.mem_append_left _ hmem, hnum, hid⟩
  · intro nm ns x hmem hnum
    rcases List.mem_append.mp hmem with hmem | hmem
    · exact hA3 nm ns x hmem hnum
    · have he := List.mem_singleton.mp hmem
      rw [← he] at hne
      simp only [entryNumber] at hne
      rw [hne] at hnum
      exact absurd hnum (by simp)

theorem p1_step (pre : List ParseNode) (po : ParseOut) (node : ParseNode)
    (hap : po.bd.stage ≠ .apply)
    (hfresh : ∀ x, entryNumber node = some x → x ∉ listedIds pre)
    (hinert : origInert node)
    (h : p1inv pre po.st.rows) :
    p1inv (pre ++ [node]) (break_node_parse po node).st.rows := by
  obtain ⟨hA1, hA2, hA3⟩ := h
  cases node with
  | value n v =>
    rw [break_node_parse_eq_value]
    exact p1inv_extend_nonentry rfl ⟨hA1, hA2, hA3⟩
  | array nm0 nodes =>
    cases hn : parse_find_value nodes "number" with
    | none =>
      rw [break_node_parse_eq_nonum po nm0 nodes hn]
      exact p1inv_extend_nonentry (by simp [entryNumber, hn]) ⟨hA1, hA2, hA3⟩
    | some x0 =>
      have hfr : x0 ∉ listedIds pre := hfresh x0 (by simp [entryNumber, hn])
      have hallmiss : ∀ r ∈ po.st.rows,
          (decide (r.id = some x0) && !r.missing) = false := by
        intro r hr
        by_cases hid : r.id = some x0
        · by_cases hm : r.missing = true
          · simp [hm]
          · have hm' : r.missing = false := Bool.eq_false_iff.mpr hm
            obtain ⟨nm, ns, y, hmem, hnum, hidy⟩ := hA2 r hr hm'
            have hyx : y = x0 := by
              rw [hid] at hidy
              exact Option.some_inj.mp hidy.symm
            subst hyx
            exact absurd (mem_listedIds hmem hnum) hfr
        · simp [hid]
      cases hj : model_find (fun r => r.id = some x0) po.st.rows with
      | some j =>
        rw [break_node_parse_eq_merge po nm0 nodes x0 j hn hap hj]
        obtain ⟨hjlt, r0, hr0, hp0⟩ := model_find_some hj
        have hidr0 : r0.id = some x0 := by simpa using hp0
        refine ⟨?_, ?_, ?_⟩
        · intro r hr hid
          rcases mem_modifyIdx hr with hm | ⟨r1, hr1, rfl⟩
          · exact hA1 r hm hid
          · rw [bnp_list_write_id] at hid
            exact absurd hid (by simp)
        · intro r hr hm
          rcases mem_modifyIdx hr with hmem | ⟨r1, hr1, rfl⟩
          · obtain ⟨nm, ns, y, hmem2, hnum, hid⟩ := hA2 r hmem hm
            exact ⟨nm, ns, y, List.mem_append_left _ hmem2, hnum, hid⟩
          · exact ⟨nm0, nodes, x0, List.mem_append_right _ (by simp), hn,
              bnp_list_write_id _ _ _ _⟩
        · intro nm ns y hmem hnum
          rcases List.mem_append.mp hmem with hmemp | hmemn
          · obtain ⟨V, hfil, hidem⟩ := hA3 nm ns y hmemp hnum
            have hyx : y ≠ x0 := fun he => hfr (he ▸ mem_listedIds hmemp hnum)
            refine ⟨V, ?_, hidem⟩
            rw [filter_modifyIdx_untouched _ _ _ ?_]
            · exact hfil
            · intro r hrj
              have hre : r = r0 := by
                rw [hr0] at hrj
                exact (Option.some_inj.mp hrj).symm
              subst hre
              constructor
              · simp [hidr0, Ne.symm hyx]
              · simp [bnp_list_write_id, Ne.symm hyx]
          · have he := List.mem_singleton.mp hmemn
            injection he with h1 h2
            subst h1
            subst h2
            have hy : y = x0 := by
              rw [hn] at hnum
              exact (Option.some_inj.mp hnum).symm
            subst hy
            refine ⟨bnp_list_write ns y (parse_location ns) r0, ?_,
              bnp_list_write_idem _ _ _ _⟩
            exact filter_modifyIdx_single _ _ _ _ hallmiss hr0
              (by simp [bnp_list_write_id, bnp_list_write_missing])
      | none =>
        have hnone : ∀ r ∈ po.st.rows,
            (decide (r.id = some x0) && !r.missing) = false := hallmiss
        have hinert' : bnp_created_loc nodes = parse_location nodes := hinert
        cases hlead : x0.data.contains '.' with
        | false =>
          rw [break_node_parse_eq_create po nm0 nodes x0 hn hap hj hlead]
          refine ⟨?_, ?_, ?_⟩
          · intro r hr hid
            rcases List.mem_append.mp hr with hm | hm
            · exact hA1 r hm hid
            · have hre := List.mem_singleton.mp hm
              subst hre
              rw [bnp_list_write_id] at hid
              exact absurd hid (by simp)
          · intro r hr hm
            rcases List.mem_append.mp hr with hmem | hmem
            · obtain ⟨nm, ns, y, hmem2, hnum, hid⟩ := hA2 r hmem hm
              exact ⟨nm, ns, y, List.mem_append_left _ hmem2, hnum, hid⟩
            · have hre := List.mem_singleton.mp hmem
              subst hre
              exact ⟨nm0, nodes, x0, List.mem_append_right _ (by simp), hn,
                bnp_list_write_id _ _ _ _⟩
          · intro nm ns y hmem hnum
            rcases List.mem_append.mp hmem with hmemp | hmemn
            · obtain ⟨V, hfil, hidem⟩ := hA3 nm ns y hmemp hnum
              have hyx : y ≠ x0 := fun he => hfr (he ▸ mem_listedIds hmemp hnum)
              refine ⟨V, ?_, hidem⟩
              rw [List.filter_append,
                show List.filter (fun r => r.id = some y && !r.missing)
                    [bnp_list_write nodes x0 (bnp_created_loc nodes)
                      (bnp_created_row nodes po.bd.stage (bnpType po nm0 nodes x0) true
                        po.st.scidGen)] = [] by
                  simp [List.filter_cons, bnp_list_write_id, Ne.symm hyx],
                List.append_nil]
              exact hfil
            · have he := List.mem_singleton.mp hmemn
              injection he with h1 h2
              subst h1
              subst h2
              have hy : y = x0 := by
                rw [hn] at hnum
                exact (Option.some_inj.mp hnum).symm
              subst hy
              refine ⟨bnp_list_write ns y (bnp_created_loc ns)
                (bnp_created_row ns po.bd.stage (bnpType po nm ns y) true
                  po.st.scidGen), ?_, ?_⟩
              · rw [List.filter_append, List.filter_eq_nil_iff.mpr
                  (fun r hr => by simp [hallmiss r hr])]
                simp [List.filter_cons, bnp_list_write_id, bnp_list_write_missing]
              · rw [hinert']
                exact bnp_list_write_idem _ _ _ _
        | true =>
          rw [break_node_parse_eq_create_dotted po nm0 nodes x0 hn hap hj hlead]
          refine ⟨?_, ?_, ?_⟩
          · intro r hr hid
            rcases mem_insertAfterIdx hr with hm | hm
            · exact hA1 r hm hid
            · subst hm
              rw [bnp_list_write_id] at hid
              exact absurd hid (by simp)
          · intro r hr hm
            rcases mem_insertAfterIdx hr with hmem | hmem
            · obtain ⟨nm, ns, y, hmem2, hnum, hid⟩ := hA2 r hmem hm
              exact ⟨nm, ns, y, List.mem_append_left _ hmem2, hnum, hid⟩
            · subst hmem
              exact ⟨nm0, nodes, x0, List.mem_append_right _ (by simp), hn,
                bnp_list_write_id _ _ _ _⟩
          · intro nm ns y hmem hnum
            rcases List.mem_append.mp hmem with hmemp | hmemn
            · obtain ⟨V, hfil, hidem⟩ := hA3 nm ns y hmemp hnum
              have hyx : y ≠ x0 := fun he => hfr (he ▸ mem_listedIds hmemp hnum)
              refine ⟨V, ?_, hidem⟩
              rw [filter_insertAfterIdx_false _ _ _
                (by simp [bnp_list_write_id, Ne.symm hyx])]
              exact hfil
            · have he := List.mem_singleton.mp hmemn
              injection he with h1 h2
              subst h1
              subst h2
              have hy : y = x0 := by
                rw [hn] at hnum
                exact (Option.some_inj.mp hnum).symm
              subst hy
              refine ⟨bnp_list_write ns y (bnp_created_loc ns)
                (bnp_created_row ns po.bd.stage (bnpType po nm ns y) false
                  po.st.scidGen), ?_, ?_⟩
              · exact filter_insertAfterIdx_true _ _ _
                  (fun r hr => by simp [hallmiss r hr])
                  (by simp [bnp_list_write_id, bnp_list_write_missing])
              · rw [hinert']
                exact bnp_list_write_idem _ _ _ _

theorem p1_init (rows : List BreakRow) : p1inv [] (rows.map break_iter_missing) := by
  refine ⟨?_, ?_, ?_⟩
  · intro r hr h0
    obtain ⟨r0, hr0, rfl⟩ := List.mem_map.mp hr
    rfl
  · intro r hr h0
    obtain ⟨r0, hr0, rfl⟩ := List.mem_map.mp hr
    exact absurd h0 (by simp [break_iter_missing])
  · intro nm ns x hmem
    simp at hmem

theorem p1_fold (suf pre : List ParseNode) (po : ParseOut)
    (hap : po.bd.stage ≠ .apply)
    (hnodup : (listedIds (pre ++ suf)).Nodup)
    (hinert : ∀ nd ∈ suf, origInert nd)
    (h : p1inv pre po.st.rows) :
    p1inv (pre ++ suf) (break_nodes_foreach suf po).st.rows := by
  induction suf generalizing pre po with
  | nil => simpa using h
  | cons nd rest ih =>
    have hfresh : ∀ x, entryNumber nd = some x → x ∉ listedIds pre := by
      intro x hx hmem
      have h2 : listedIds (pre ++ nd :: rest)
          = listedIds pre ++ x :: listedIds rest := by
        simp [listedIds, List.filterMap_append, List.filterMap_cons, hx]
      rw [h2] at hnodup
      rcases List.nodup_append.mp hnodup with ⟨-, -, hdisj⟩
      exact hdisj hmem (List.mem_cons_self _ _)
    have hstep := p1_step pre po nd hap hfresh (hinert nd (by simp)) h
    have hlist : pre ++ nd :: rest = (pre ++ [nd]) ++ rest := by simp
    rw [show break_nodes_foreach (nd :: rest) po
      = break_nodes_foreach rest (break_node_parse po nd) from rfl, hlist]
    refine ih (pre ++ [nd]) (break_node_parse po nd) ?_ ?_
      (fun x h2 => hinert x (by simp [h2])) hstep
    · rw [break_node_parse_stage]
      unfold chainStage
      split <;> decide
    · rw [← hlist]
      exact hnodup

/-- The per-row body of the `breaks_missing` sweep. -/
def sweepf (r : BreakRow) : Option BreakRow :=
  if r.id.isSome = true ∧ r.missing = true then
    if r.discard = true then none else some (break_clear r)
  else some r

theorem breaks_missing_eq (st : BreakState) :
    breaks_missing st = { st with rows := st.rows.filterMap sweepf } := rfl

/-- The state a refresh leaves behind, as far as the second pass is
concerned: every listed number owns exactly one row, already equal to
what rewriting it would produce; id-carrying rows are unmarked and
their ids listed; id-less rows are marked missing. -/
def listClean (nodes : List ParseNode) (st : BreakState) : Prop :=
  (∀ nm ns x, ParseNode.array nm ns ∈ nodes → parse_find_value ns "number" = some x →
    ∃ V, st.rows.filter (fun r => r.id = some x) = [V]
      ∧ bnp_list_write ns x (parse_location ns) V = V)
  ∧ (∀ r ∈ st.rows, r.id.isSome = true →
      r.missing = false ∧ ∃ nm ns x, ParseNode.array nm ns ∈ nodes
        ∧ parse_find_value ns "number" = some x ∧ r.id = some x)
  ∧ (∀ r ∈ st.rows, r.id = none → r.missing = true)

theorem filter_sweep (x : String) (rows : List BreakRow) :
    List.filter (fun r => r.id = some x) (rows.filterMap sweepf)
      = List.filter (fun r => r.id = some x && !r.missing) rows := by
  induction rows with
  | nil => rfl
  | cons a rest ih =>
    by_cases h1 : a.id.isSome = true ∧ a.missing = true
    · by_cases h2 : a.discard = true
      · rw [List.filterMap_cons, show sweepf a = none by simp [sweepf, h1, h2]]
        show List.filter (fun r => decide (r.id = some x)) (rest.filterMap sweepf)
          = List.filter (fun r => decide (r.id = some x) && !r.missing) (a :: rest)
        rw [List.filter_cons, if_neg (by simp [h1.2]), ih]
      · rw [List.filterMap_cons,
          show sweepf a = some (break_clear a) by simp [sweepf, h1, h2]]
        show List.filter (fun r => decide (r.id = some x))
            (break_clear a :: rest.filterMap sweepf)
          = List.filter (fun r => decide (r.id = some x) && !r.missing) (a :: rest)
        rw [List.filter_cons, if_neg (by simp [break_clear]), List.filter_cons,
          if_neg (by simp [h1.2]), ih]
    · rw [List.filterMap_cons, show sweepf a = some a by simp [sweepf, h1]]
      show List.filter (fun r => decide (r.id = some x)) (a :: rest.filterMap sweepf)
        = List.filter (fun r => decide (r.id = some x) && !r.missing) (a :: rest)
      rw [List.filter_cons, List.filter_cons]
      by_cases hid : a.id = some x
      · have hm : a.missing = false := by
          have hsome : a.id.isSome = true := by simp [hid]
          cases hmv : a.missing with
          | false => rfl
          | true => exact absurd ⟨hsome, hmv⟩ h1
        rw [if_pos (by simp [hid]), if_pos (by simp [hid, hm]), ih]
      · rw [if_neg (by simp [hid]), if_neg (by simp [hid]), ih]

theorem sweep_establishes (nodes : List ParseNode) (st : BreakState)
    (h : p1inv nodes st.rows) :
    listClean nodes (breaks_missing st) := by
  obtain ⟨hA1, hA2, hA3⟩ := h
  rw [breaks_missing_eq]
  refine ⟨?_, ?_, ?_⟩
  · intro nm ns x hmem hnum
    obtain ⟨V, hfil, hidem⟩ := hA3 nm ns x hmem hnum
    refine ⟨V, ?_, hidem⟩
    show List.filter _ (st.rows.filterMap sweepf) = [V]
    rw [filter_sweep]
    exact hfil
  · intro r hr hsome
    obtain ⟨r0, hr0, hfr0⟩ := List.mem_filterMap.mp hr
    by_cases h1 : r0.id.isSome = true ∧ r0.missing = true
    · by_cases h2 : r0.discard = true
      · rw [show sweepf r0 = none by simp [sweepf, h1, h2]] at hfr0
        exact absurd hfr0 (by simp)
      · rw [show sweepf r0 = some (break_clear r0) by simp [sweepf, h1, h2]] at hfr0
        have hrr : r = break_clear r0 := (Option.some_inj.mp hfr0).symm
        rw [hrr] at hsome
        exact absurd hsome (by simp [break_clear])
    · rw [show sweepf r0 = some r0 by simp [sweepf, h1]] at hfr0
      have hrr : r = r0 := (Option.some_inj.mp hfr0).symm
      subst hrr
      have hm : r.missing = false := by
        cases hmv : r.missing with
        | false => rfl
        | true => exact absurd ⟨hsome, hmv⟩ h1
      exact ⟨hm, hA2 r hr0 hm⟩
  · intro r hr hid
    obtain ⟨r0, hr0, hfr0⟩ := List.mem_filterMap.mp hr
    by_cases h1 : r0.id.isSome = true ∧ r0.missing = true
    · by_cases h2 : r0.discard = true
      · rw [show sweepf r0 = none by simp [sweepf, h1, h2]] at hfr0
        exact absurd hfr0 (by simp)
      · rw [show sweepf r0 = some (break_clear r0) by simp [sweepf, h1, h2]] at hfr0
        have hrr : r = break_clear r0 := (Option.some_inj.mp hfr0).symm
        rw [hrr]
        show (break_clear r0).missing = true
        exact h1.2
    · rw [show sweepf r0 = some r0 by simp [sweepf, h1]] at hfr0
      have hrr : r = r0 := (Option.some_inj.mp hfr0).symm
      subst hrr
      exact hA1 r hr0 hid

theorem state_ext {a b : BreakState} (hr : a.rows = b.rows) (hs : a.scidGen = b.scidGen) :
    a = b := by
  cases a
  cases b
  simp_all

theorem mask_append_nonentry {pre : List ParseNode} {nd : ParseNode} (r : BreakRow)
    (hne : entryNumber nd = none) : mask (pre ++ [nd]) r = mask pre r := by
  unfold mask
  rw [show touched (pre ++ [nd]) r = touched pre r by
    simp [touched, List.any_append, hne]]

theorem mask_append_entry_ne {pre : List ParseNode} {nd : ParseNode} {x : String}
    (r : BreakRow) (hx : entryNumber nd = some x) (hr : r.id ≠ some x) :
    mask (pre ++ [nd]) r = mask pre r := by
  unfold mask
  rw [show touched (pre ++ [nd]) r = touched pre r by
    simp [touched, List.any_append, hx, hr]]

theorem mask_append_entry_eq {pre : List ParseNode} {nd : ParseNode} {x : String}
    (r : BreakRow) (hx : entryNumber nd = some x) (hr : r.id = some x) :
    mask (pre ++ [nd]) r = r := by
  unfold mask
  rw [show touched (pre ++ [nd]) r = true by simp [touched, List.any_append, hx, hr]]
  rfl

theorem touched_of_not_listed {pre : List ParseNode} {x : String} (r : BreakRow)
    (hr : r.id = some x) (hfr : x ∉ listedIds pre) : touched pre r = false := by
  cases ht : touched pre r with
  | false => rfl
  | true =>
    exfalso
    unfold touched at ht
    obtain ⟨nd, hnd, hcl⟩ := List.any_eq_true.mp ht
    cases hy : entryNumber nd with
    | none =>
      rw [hy] at hcl
      exact absurd hcl (by simp)
    | some y =>
      rw [hy] at hcl
      have hidy : r.id = some y := of_decide_eq_true hcl
      have hxy : y = x := by
        rw [hr] at hidy
        exact Option.some_inj.mp hidy.symm
      subst hxy
      exact hfr (List.mem_filterMap.mpr ⟨nd, hnd, hy⟩)

/-- The second pass of an identical listing only re-merges: starting
from the marked clean state, after any prefix of the listing the rows
are the clean rows with the not-yet-refreshed ones re-marked missing,
and the scid generator never moves. -/
theorem pass2_fold (s1 : BreakState) (nodes : List ParseNode)
    (hclean : listClean nodes s1)
    (hnodup : (listedIds nodes).Nodup) :
    ∀ (suf pre : List ParseNode), nodes = pre ++ suf →
      ∀ po : ParseOut, po.bd.stage ≠ .apply →
        po.st.rows = s1.rows.map (mask pre) → po.st.scidGen = s1.scidGen →
        (break_nodes_foreach suf po).st.rows = s1.rows.map (mask (pre ++ suf))
        ∧ (break_nodes_foreach suf po).st.scidGen = s1.scidGen := by
  intro suf
  induction suf with
  | nil =>
    intro pre hsplit po hap hrows hsg
    constructor
    · simpa using hrows
    · simpa using hsg
  | cons nd rest ih =>
    intro pre hsplit po hap hrows hsg
    rw [show break_nodes_foreach (nd :: rest) po
      = break_nodes_foreach rest (break_node_parse po nd) from rfl]
    have hap' : (break_node_parse po nd).bd.stage ≠ .apply := by
      rw [break_node_parse_stage]
      unfold chainStage
      split <;> decide
    have hsplit' : nodes = (pre ++ [nd]) ++ rest := by simpa using hsplit
    have hcollapse : (pre ++ [nd]) ++ rest = pre ++ nd :: rest := by simp
    cases nd with
    | value n v =>
      have hrows' : (break_node_parse po (.value n v)).st.rows
          = s1.rows.map (mask (pre ++ [ParseNode.value n v])) := by
        rw [break_node_parse_eq_value, hrows]
        exact List.map_congr_left
          (fun r _ => (@mask_append_nonentry pre (.value n v) r rfl).symm)
      obtain ⟨h1, h2⟩ := ih (pre ++ [.value n v]) hsplit' (break_node_parse po (.value n v))
        hap' hrows' (by rw [break_node_parse_eq_value]; exact hsg)
      rw [hcollapse] at h1
      exact ⟨h1, h2⟩
    | array nm ns =>
      cases hn : parse_find_value ns "number" with
      | none =>
        have hne : entryNumber (ParseNode.array nm ns) = none := by
          simp [entryNumber, hn]
        have hrows' : (break_node_parse po (.array nm ns)).st.rows
            = s1.rows.map (mask (pre ++ [ParseNode.array nm ns])) := by
          rw [break_node_parse_eq_nonum po nm ns hn, hrows]
          exact List.map_congr_left (fun r _ => (mask_append_nonentry r hne).symm)
        obtain ⟨h1, h2⟩ := ih (pre ++ [.array nm ns]) hsplit' (break_node_parse po (.array nm ns))
          hap' hrows' (by rw [break_node_parse_eq_nonum po nm ns hn]; exact hsg)
        rw [hcollapse] at h1
        exact ⟨h1, h2⟩
      | some x =>
        have hx : entryNumber (ParseNode.array nm ns) = some x := by
          simp [entryNumber, hn]
        have hmem : ParseNode.array nm ns ∈ nodes := by
          rw [hsplit]
          exact List.mem_append_right _ (List.mem_cons_self _ _)
        obtain ⟨V, hfil, hidem⟩ := hclean.1 nm ns x hmem hn
        obtain ⟨j, hmf, hVj, huniq⟩ := filter_singleton_find hfil
        have hVx : V.id = some x := by
          have hVmem : V ∈ List.filter (fun r => decide (r.id = some x)) s1.rows := by
            rw [hfil]
            exact List.mem_singleton.mpr rfl
          exact of_decide_eq_true (List.mem_filter.mp hVmem).2
        have hfr : x ∉ listedIds pre := by
          intro hmemx
          have hsplitIds : listedIds nodes = listedIds pre ++ x :: listedIds rest := by
            rw [hsplit]
            simp [listedIds, List.filterMap_append, List.filterMap_cons, hx]
          rw [hsplitIds] at hnodup
          rcases List.nodup_append.mp hnodup with ⟨-, -, hdisj⟩
          exact hdisj hmemx (List.mem_cons_self _ _)
        have hj : model_find (fun r => r.id = some x) po.st.rows = some j := by
          rw [hrows, model_find_map (fun r => by rw [mask_id]), hmf]
        rw [break_node_parse_eq_merge po nm ns x j hn hap hj]
        have hrows' : modifyIdx po.st.rows j (bnp_list_write ns x (parse_location ns))
            = s1.rows.map (mask (pre ++ [ParseNode.array nm ns])) := by
          apply List.ext_getElem?
          intro i
          by_cases hij : i = j
          · subst hij
            rw [getElem?_modifyIdx_self, hrows, List.getElem?_map, hVj,
              List.getElem?_map, hVj]
            simp only [Option.map_some']
            have hmaskV : mask pre V = break_iter_missing V := by
              unfold mask
              rw [touched_of_not_listed V hVx hfr]
              rfl
            rw [hmaskV, bnp_list_write_missing_irrel, hidem,
              mask_append_entry_eq V hx hVx]
          · rw [getElem?_modifyIdx_ne _ _ _ _ (Ne.symm hij), hrows,
              List.getElem?_map, List.getElem?_map]
            cases hri : s1.rows[i]? with
            | none => rfl
            | some r2 =>
              simp only [Option.map_some']
              have hr2x : r2.id ≠ some x := fun hid =>
                hij (huniq i r2 hri (by simp [hid]))
              rw [mask_append_entry_ne r2 hx hr2x]
        obtain ⟨h1, h2⟩ := ih (pre ++ [.array nm ns]) hsplit'
          { bd := { iter := j, type := bnpType po nm ns x, stage := .next },
            st := ⟨modifyIdx po.st.rows j (bnp_list_write ns x (parse_location ns)),
              po.st.scidGen⟩,
            eff := po.eff ++ gotoEff po.bd.stage }
          (by simp) hrows' hsg
        rw [hcollapse] at h1
        exact ⟨h1, h2⟩

/-- One refresh of a duplicate-free, origin-inert listing leaves the
store clean for that listing. -/
theorem refresh_clean (nodes : List ParseNode) (st : BreakState) (t : String)
    (hinert : ∀ nd ∈ nodes, origInert nd)
    (hnodup : (listedIds nodes).Nodup) :
    listClean nodes (on_break_list (some t) (some nodes) st).st := by
  have hst : (on_break_list (some t) (some nodes) st).st
      = breaks_missing (break_nodes_foreach nodes
          { bd := initBD .discard,
            st := { st with rows := st.rows.map break_iter_missing }, eff := [] }).st := rfl
  rw [hst]
  have hp1 := p1_fold nodes []
    { bd := initBD .discard,
      st := { st with rows := st.rows.map break_iter_missing }, eff := [] }
    (by simp [initBD]) (by simpa using hnodup) hinert (p1_init st.rows)
  exact sweep_establishes nodes _ (by simpa using hp1)

/-- A clean store is a fixed point of the refresh: replaying the
listing merges every row node back into its own row, rewriting the
same values, and the sweep then removes nothing. -/
theorem refresh_fixpoint (nodes : List ParseNode) (s1 : BreakState) (t : String)
    (hclean : listClean nodes s1) (hnodup : (listedIds nodes).Nodup) :
    (on_break_list (some t) (some nodes) s1).st = s1 := by
  obtain ⟨h1, h2⟩ := pass2_fold s1 nodes hclean hnodup nodes [] rfl
    { bd := initBD .discard,
      st := { s1 with rows := s1.rows.map break_iter_missing }, eff := [] }
    (by simp [initBD]) (List.map_congr_left (fun r _ => rfl)) rfl
  simp only [List.nil_append] at h1
  have hst : (on_break_list (some t) (some nodes) s1).st
      = breaks_missing (break_nodes_foreach nodes
          { bd := initBD .discard,
            st := { s1 with rows := s1.rows.map break_iter_missing }, eff := [] }).st := rfl
  rw [hst, breaks_missing_eq]
  refine state_ext ?_ h2
  show (break_nodes_foreach nodes
      { bd := initBD .discard,
        st := { s1 with rows := s1.rows.map break_iter_missing },
        eff := [] }).st.rows.filterMap sweepf = s1.rows
  rw [h1, List.filterMap_map]
  apply filterMap_id_of
  intro r hr
  show sweepf (mask nodes r) = some r
  cases ht : touched nodes r with
  | true =>
    have hmask : mask nodes r = r := by
      unfold mask
      rw [ht]
      rfl
    rw [hmask]
    unfold touched at ht
    obtain ⟨nd, hnd, hcl⟩ := List.any_eq_true.mp ht
    cases hy : entryNumber nd with
    | none =>
      rw [hy] at hcl
      exact absurd hcl (by simp)
    | some y =>
      rw [hy] at hcl
      have hidy : r.id = some y := of_decide_eq_true hcl
      have hsome : r.id.isSome = true := by simp [hidy]
      obtain ⟨hm, -⟩ := hclean.2.1 r hr hsome
      unfold sweepf
      rw [if_neg (by simp [hm])]
  | false =>
    have hmask : mask nodes r = break_iter_missing r := by
      unfold mask
      rw [ht]
      rfl
    rw [hmask]
    cases hid : r.id with
    | some y =>
      exfalso
      have hsome : r.id.isSome = true := by simp [hid]
      obtain ⟨-, nm, ns, y', hmem, hnum, hidy⟩ := hclean.2.1 r hr hsome
      have htr : touched nodes r = true := by
        unfold touched
        refine List.any_eq_true.mpr ⟨ParseNode.array nm ns, hmem, ?_⟩
        rw [show entryNumber (ParseNode.array nm ns) = some y' by
          simp [entryNumber, hnum]]
        exact decide_eq_true hidy
      rw [ht] at htr
      exact absurd htr (by simp)
    | none =>
      have hmiss : r.missing = true := hclean.2.2 r hr hid
      unfold sweepf
      rw [if_neg (by simp [break_iter_missing, hid]), break_iter_missing_eq_self hmiss]

/-- A full listing with one breakpoint whose position is only carried
by its `original-location` field — a pending breakpoint, as GDB reports
it. -/
def cx2_body : List ParseNode :=
  [.array "bkpt" [.value "number" "1", .value "type" "breakpoint",
                  .value "original-location" "/a.c:10"]]

/-- The store after one refresh of that listing, from empty. -/
def cx2_pass1 : BreakState := (on_break_list (some "1") (some cx2_body) ⟨[], 0⟩).st

/-- The store after replaying the identical listing a second time. -/
def cx2_pass2 : BreakState := (on_break_list (some "1") (some cx2_body) cx2_pass1).st

/-- **C2 counterexample.** Replaying an identical full listing is NOT
idempotent: the first pass creates the row and splits its
`original-location` into file `/a.c` and line 10, but the second pass
merges into the existing row through the path that skips the
original-location split, clearing the file and line back to NULL
and 0. -/
theorem break_list_idempotent_counterexample :
    cx2_pass2 ≠ cx2_pass1
    ∧ (cx2_pass1.rows.map (fun r => (r.file, r.line))) = [(some "/a.c", 10)]
    ∧ (cx2_pass2.rows.map (fun r => (r.file, r.line))) = [(none, 0)] := by
  refine ⟨by decide, by decide, by decide⟩

/-- **C2 amended.** The refresh IS idempotent for listings whose row
nodes announce pairwise distinct numbers and whose original-location
processing is inert — every row node already carries its resolved file
and line, so the creation path's original-location split writes nothing
the merge path would drop.  The counterexample shows the hypothesis is
needed: a row located only through `original-location` loses its file
and line on replay. -/
theorem break_list_idempotent (st : BreakState) (t1 t2 : String) (body : List ParseNode)
    (hnodup : (listedIds body).Nodup)
    (hinert : ∀ nd ∈ body, origInert nd) :
    (on_break_list (some t2) (some body)
        (on_break_list (some t1) (some body) st).st).st
      = (on_break_list (some t1) (some body) st).st :=
  refresh_fixpoint body _ t2 (refresh_clean body st t1 hinert hnodup) hnodup

/-- A full listing with one breakpoint that carries its resolved
file and line. -/
def w2_body : List ParseNode :=
  [.array "bkpt" [.value "number" "2", .value "type" "breakpoint",
                  .value "fullname" "/a.c", .value "line" "7"]]

/-- **C2 witness.** The amended theorem at a concrete one-row listing
whose row node resolves its own file and line. -/
theorem break_list_idempotent_witness :
    (on_break_list (some "3") (some w2_body)
        (on_break_list (some "1") (some w2_body) ⟨[], 0⟩).st).st
      = (on_break_list (some "1") (some w2_body) ⟨[], 0⟩).st :=
  break_list_idempotent ⟨[], 0⟩ "1" "3" w2_body (by decide) (by decide)

end Scope
